import Mathlib

/-!
Verification development for the markdown-to-confluence reference-resolution
and two-phase synchronization engine.  The definitions below are a shallow
embedding of the JavaScript sources (`reference-processor.js`,
`confluence-publisher.js`, `frontmatter-utils.js`): strings are modelled as
`List Char`, JavaScript `Map`s and objects as insertion-ordered association
lists, and the `gray-matter` frontmatter library as a line-based
parse/serialize pair restricted to the `key: value` scalar form the
repository itself produces.
-/

set_option maxRecDepth 4000

abbrev Chars := List Char

/-- Boolean test that `p` occurs at the start of `s`. -/
def startsWithL : Chars → Chars → Bool
  | [], _ => true
  | _ :: _, [] => false
  | a :: as, b :: bs => a = b && startsWithL as bs

/-- Split `s` at the first occurrence of `pat`: returns the part before `pat`
and the part after it, or `none` when `pat` does not occur. -/
def breakOn (pat : Chars) : Chars → Option (Chars × Chars)
  | [] => if pat = [] then some ([], []) else none
  | c :: rest =>
    if startsWithL pat (c :: rest) then some ([], (c :: rest).drop pat.length)
    else match breakOn pat rest with
      | some (pre, post) => some (c :: pre, post)
      | none => none

/-- Whether `pat` occurs as a contiguous sub-list of `s`. -/
def containsSub (pat s : Chars) : Bool := (breakOn pat s).isSome

/-- Model of `String.prototype.replace` with a plain-string pattern:
replaces only the first occurrence of `pat` (JS semantics). -/
def replaceFirstSub (pat s : Chars) : Chars :=
  match breakOn pat s with
  | some (pre, post) => pre ++ post
  | none => s

/-- Model of the regex replace `/\.md$/` → `''`. -/
def stripMd (u : Chars) : Chars :=
  if u.reverse.take 3 = ".md".toList.reverse then (u.reverse.drop 3).reverse else u

/-- Model of the regex replace `/\\/g` → `'/'`. -/
def backslashToSlash (p : Chars) : Chars :=
  p.map (fun c => if c = '\\' then '/' else c)

/-- `normalizePath` from `reference-processor.js`: backslashes become slashes,
then all leading and trailing slashes are stripped. -/
def normalizePath (p : Chars) : Chars :=
  let q := backslashToSlash p
  ((q.dropWhile (· = '/')).reverse.dropWhile (· = '/')).reverse

/-- `trim()` of JavaScript strings (whitespace at both ends). -/
def isWsChar (c : Char) : Bool := c = ' ' || c = '\n' || c = '\t' || c = '\r'

def trimChars (s : Chars) : Chars :=
  ((s.dropWhile isWsChar).reverse.dropWhile isWsChar).reverse

/-- gray-matter's `newline` helper: append `'\n'` unless already present. -/
def ensureNl (s : Chars) : Chars :=
  if s.getLast? = some '\n' then s else s ++ ['\n']

/-- Split on `'\n'`, like `String.split('\n')`: `"a\nb"` gives `[a, b]` and
the empty string gives one empty line. -/
def splitLines : Chars → List Chars
  | [] => [[]]
  | c :: rest =>
    if c = '\n' then [] :: splitLines rest
    else match splitLines rest with
      | l :: ls => (c :: l) :: ls
      | [] => [[c]]

/-- Inverse of `splitLines`: join with `'\n'`. -/
def joinLines : List Chars → Chars
  | [] => []
  | [l] => l
  | l :: ls => l ++ '\n' :: joinLines ls

/-- Insertion-ordered association-list update, the semantics of setting a
key on a JavaScript object or `Map`: an existing key keeps its position and
receives the new value, a fresh key is appended. -/
def alSet {β : Type} (m : List (Chars × β)) (k : Chars) (v : β) : List (Chars × β) :=
  match m with
  | [] => [(k, v)]
  | (k', v') :: rest => if k' = k then (k, v) :: rest else (k', v') :: alSet rest k v

/-- Association-list lookup, the semantics of `obj[k]` / `Map.get`. -/
def alGet {β : Type} (m : List (Chars × β)) (k : Chars) : Option β :=
  match m with
  | [] => none
  | (k', v') :: rest => if k' = k then some v' else alGet rest k

/-- Keys of an association list are pairwise distinct. -/
def nodupKeys {β : Type} (m : List (Chars × β)) : Prop :=
  (m.map Prod.fst).Nodup

-- Basic lemmas about the utilities above.

theorem startsWithL_append (p s t : Chars) (h : startsWithL p s = true) :
    startsWithL p (s ++ t) = true := by
  induction p generalizing s with
  | nil => simp [startsWithL]
  | cons a as ih =>
    cases s with
    | nil => simp [startsWithL] at h
    | cons b bs =>
      simp only [startsWithL, Bool.and_eq_true, decide_eq_true_eq] at h ⊢
      exact ⟨h.1, ih bs h.2⟩

theorem startsWithL_self_append (p t : Chars) : startsWithL p (p ++ t) = true := by
  induction p with
  | nil => simp [startsWithL]
  | cons a as ih => simp [startsWithL, ih]

theorem startsWithL_eq_append (p s : Chars) (h : startsWithL p s = true) :
    ∃ t, s = p ++ t := by
  induction p generalizing s with
  | nil => exact ⟨s, rfl⟩
  | cons a as ih =>
    cases s with
    | nil => simp [startsWithL] at h
    | cons b bs =>
      simp only [startsWithL, Bool.and_eq_true, decide_eq_true_eq] at h
      obtain ⟨t, ht⟩ := ih bs h.2
      exact ⟨t, by simp [h.1.symm, ht]⟩

theorem breakOn_self_append (pat t : Chars) :
    breakOn pat (pat ++ t) = some ([], t) := by
  cases pat with
  | nil => cases t with
    | nil => simp [breakOn]
    | cons c r => simp [breakOn, startsWithL]
  | cons a as =>
    have h : startsWithL (a :: as) (a :: (as ++ t)) = true := by
      simpa using startsWithL_self_append (a :: as) t
    simp only [List.cons_append, breakOn, h, if_true]
    simp [List.drop_left]
    intro hc
    simp [h] at hc

theorem containsSub_of_append (pat x y : Chars) :
    containsSub pat (x ++ pat ++ y) = true := by
  induction x with
  | nil => simp [containsSub, breakOn_self_append]
  | cons c cs ih =>
    simp only [containsSub, List.append_assoc, List.cons_append, breakOn] at ih ⊢
    by_cases h : startsWithL pat (c :: (cs ++ (pat ++ y))) = true
    · simp [h]
    · obtain ⟨⟨pre, post⟩, hp⟩ := Option.isSome_iff_exists.mp ih
      simp [h, hp]

/-! ## Frontmatter store (`frontmatter-utils.js` over the `gray-matter` library)

`matter(content)` is modelled line-based: a document whose first line is the
delimiter `---` carries a metadata block up to the next `---` line, parsed as
`key: value` lines; `matter.stringify(body, data)` emits the block back and
ensures a trailing newline on the body (gray-matter's `newline` helper), or
returns just the newline-terminated body when the data object is empty. -/

def fmDelim : Chars := "---".toList

/-- One `key: value` metadata line: split at the first `": "`. -/
def parseLineKV (l : Chars) : Option (Chars × Chars) := breakOn ": ".toList l

/-- Parse a metadata block's lines into an insertion-ordered object. -/
def parseBlock (ls : List Chars) : List (Chars × Chars) :=
  ls.foldl (fun m l =>
    match parseLineKV l with
    | some kv => alSet m kv.1 kv.2
    | none => m) []

def dumpLine (kv : Chars × Chars) : Chars := kv.1 ++ ": ".toList ++ kv.2

def dumpBlock (m : List (Chars × Chars)) : Chars :=
  (m.map (fun kv => dumpLine kv ++ ['\n'])).flatten

/-- Find the closing `---` line: returns the block before it and the lines
after it. -/
def splitAtDelim : List Chars → Option (List Chars × List Chars)
  | [] => none
  | l :: ls =>
    if l = fmDelim then some ([], ls)
    else match splitAtDelim ls with
      | some (a, b) => some (l :: a, b)
      | none => none

/-- `matter(content)`: frontmatter data and the remaining content. An
unclosed block consumes the whole document (content becomes empty). -/
def matterParse (s : Chars) : List (Chars × Chars) × Chars :=
  match splitLines s with
  | l0 :: rest =>
    if l0 = fmDelim then
      match splitAtDelim rest with
      | some (block, after) => (parseBlock block, joinLines after)
      | none => (parseBlock rest, [])
    else ([], s)
  | [] => ([], s)

/-- JavaScript object spread `{...a, ...d}`. -/
def mergeFm (a d : List (Chars × Chars)) : List (Chars × Chars) :=
  d.foldl (fun m kv => alSet m kv.1 kv.2) a

/-- `matter.stringify(body, m)`. -/
def matterStringify (body : Chars) (m : List (Chars × Chars)) : Chars :=
  if m = [] then ensureNl body
  else fmDelim ++ '\n' :: (dumpBlock m ++ (fmDelim ++ '\n' :: ensureNl body))

/-- `parseFrontmatter` from `frontmatter-utils.js`: gray-matter parse with the
content trimmed. -/
def parseFrontmatter (content : Chars) : List (Chars × Chars) × Chars :=
  ((matterParse content).1, trimChars (matterParse content).2)

/-- `updateFrontmatter` from `frontmatter-utils.js`: re-parse, shallow-merge
the new data over the existing data, re-serialize with the original body. -/
def updateFrontmatter (content : Chars) (newData : List (Chars × Chars)) : Chars :=
  matterStringify (matterParse content).2 (mergeFm (matterParse content).1 newData)

/-! ## Parsed frontmatter values

Typed values as the YAML layer yields them to `reference-processor.js` and
`confluence-publisher.js`; `truthy` is JavaScript truthiness for them. -/

inductive FmVal where
  | str (s : Chars)
  | bool (b : Bool)
  | null
deriving DecidableEq, Repr

def truthy : FmVal → Bool
  | .str s => !(s = [])
  | .bool b => b
  | .null => false

abbrev FMv := List (Chars × FmVal)

def kPageId : Chars := "connie-page-id".toList
def kPublish : Chars := "connie-publish".toList
def kSpaceKey : Chars := "connie-space-key".toList
def kDontChangeParent : Chars := "connie-dont-change-parent-page".toList
def kTitle : Chars := "connie-title".toList
def kBlogDate : Chars := "connie-blog-post-date".toList
def kContentType : Chars := "connie-content-type".toList

/-! ## Node `path` (posix) -/

def splitOnChar (sep : Char) : Chars → List Chars
  | [] => [[]]
  | c :: rest =>
    if c = sep then [] :: splitOnChar sep rest
    else match splitOnChar sep rest with
      | l :: ls => (c :: l) :: ls
      | [] => [[c]]

def intercalateChar (sep : Char) : List Chars → Chars
  | [] => []
  | [l] => l
  | l :: ls => l ++ sep :: intercalateChar sep ls

/-- Segment normalization of `path.normalize`: drop `.` and empty segments,
let `..` pop a previous segment; a leading `..` survives only on relative
paths (`allowUp`). -/
def normStack (allowUp : Bool) (segs : List Chars) (acc : List Chars) : List Chars :=
  match segs with
  | [] => acc.reverse
  | seg :: rest =>
    if seg = [] ∨ seg = ".".toList then normStack allowUp rest acc
    else if seg = "..".toList then
      match acc with
      | [] => if allowUp then normStack allowUp rest (seg :: acc) else normStack allowUp rest acc
      | top :: acc' =>
        if top = "..".toList then normStack allowUp rest (seg :: acc)
        else normStack allowUp rest acc'
    else normStack allowUp rest (seg :: acc)

/-- `path.posix.normalize`. -/
def pathNormalize (p : Chars) : Chars :=
  if p = [] then ".".toList
  else
    let isAbs := p.head? = some '/'
    let hasTrail := p.getLast? = some '/'
    let core := intercalateChar '/' (normStack (!isAbs) (splitOnChar '/' p) [])
    if core = [] then
      if isAbs then "/".toList else if hasTrail then "./".toList else ".".toList
    else
      (if isAbs then '/' :: core else core) ++ (if hasTrail then "/".toList else [])

/-- `path.posix.join` of two parts. -/
def pathJoin (a b : Chars) : Chars :=
  let joined := if a = [] then b else if b = [] then a else a ++ '/' :: b
  if joined = [] then ".".toList else pathNormalize joined

/-- `path.posix.dirname`. -/
def dirname (p : Chars) : Chars :=
  if p = [] then ".".toList
  else
    let hasRoot := p.head? = some '/'
    let r1 := p.reverse.dropWhile (· = '/')
    let r2 := r1.dropWhile (· ≠ '/')
    match r2 with
    | [] => if hasRoot then "/".toList else ".".toList
    | [_] => if hasRoot then "/".toList else ".".toList
    | _ :: tail => if hasRoot ∧ tail.reverse = "/".toList then "//".toList else tail.reverse

/-- `path.posix.basename(p, ext)`. -/
def baseNameExt (p ext : Chars) : Chars :=
  let q := p.reverse.dropWhile (· = '/')
  let base := (q.takeWhile (· ≠ '/')).reverse
  if base ≠ ext ∧ startsWithL ext.reverse base.reverse = true then
    (base.reverse.drop ext.length).reverse
  else base

/-! ## Inline-link scanner (the regex `\[([^\]]+)\]\(([^)]+)\)` of
`fixReferences` with `String.prototype.replace`) -/

/-- Try to match `text](url)` at the head of `s`: the link text is the
maximal nonempty run without `]`, then the literal `](`, then the maximal
nonempty run without `)`, then `)`. Returns text, url and the rest. -/
def tryLink (s : Chars) : Option (Chars × Chars × Chars) :=
  match s.takeWhile (· ≠ ']'), s.dropWhile (· ≠ ']') with
  | a0 :: as0, ']' :: '(' :: b2 =>
    (match b2.takeWhile (· ≠ ')'), b2.dropWhile (· ≠ ')') with
     | c0 :: cs0, ')' :: d4 => some (a0 :: as0, c0 :: cs0, d4)
     | _, _ => none)
  | _, _ => none

theorem tryLink_decomp {s t u r : Chars} (h : tryLink s = some (t, u, r)) :
    s = t ++ ']' :: '(' :: (u ++ ')' :: r) ∧ t ≠ [] ∧ (∀ c ∈ t, c ≠ ']') ∧
      u ≠ [] ∧ (∀ c ∈ u, c ≠ ')') := by
  unfold tryLink at h
  split at h
  case h_2 => exact absurd h (by simp)
  case h_1 w1 w2 a0 as0 b2 h1 h2 =>
    split at h
    case h_2 => exact absurd h (by simp)
    case h_1 w3 w4 c0 cs0 d4 h3 h4 =>
      injection h with h5
      injection h5 with ht h6
      injection h6 with hu hr
      subst ht; subst hu; subst hr
      have hb2 : b2 = (c0 :: cs0) ++ ')' :: d4 := by
        conv_lhs => rw [← List.takeWhile_append_dropWhile (· ≠ ')') b2]
        rw [h3, h4]
      have hs : s = (a0 :: as0) ++ ']' :: '(' :: b2 := by
        conv_lhs => rw [← List.takeWhile_append_dropWhile (· ≠ ']') s]
        rw [h1, h2]
      refine ⟨?_, by simp, ?_, by simp, ?_⟩
      · rw [hs, hb2]
      · intro c hc
        have hc' : c ∈ s.takeWhile (· ≠ ']') := by rw [h1]; exact hc
        simpa using List.mem_takeWhile_imp hc'
      · intro c hc
        have hc' : c ∈ b2.takeWhile (· ≠ ')') := by rw [h3]; exact hc
        simpa using List.mem_takeWhile_imp hc'

theorem tryLink_decomp_length {s t u r : Chars} (h : tryLink s = some (t, u, r)) :
    r.length < s.length := by
  obtain ⟨hs, -, -, -, -⟩ := tryLink_decomp h
  subst hs
  simp
  omega

/-- `cleanContent.replace(linkRegex, cb)`: scan left to right; at each `[`
try a link match; replace a match by `f text url`, emit a failed `[`
verbatim and continue. -/
def scanLinksGo (f : Chars → Chars → Chars) : Nat → Chars → Chars
  | _, [] => []
  | 0, s => s
  | fuel + 1, c :: rest =>
    if c = '[' then
      match tryLink rest with
      | some tur => f tur.1 tur.2.1 ++ scanLinksGo f fuel tur.2.2
      | none => '[' :: scanLinksGo f fuel rest
    else c :: scanLinksGo f fuel rest

def scanLinks (f : Chars → Chars → Chars) (s : Chars) : Chars :=
  scanLinksGo f s.length s

/-- The `(text, url)` pairs the scanner matches, in order. -/
def linksOfGo : Nat → Chars → List (Chars × Chars)
  | _, [] => []
  | 0, _ => []
  | fuel + 1, c :: rest =>
    if c = '[' then
      match tryLink rest with
      | some tur => (tur.1, tur.2.1) :: linksOfGo fuel tur.2.2
      | none => linksOfGo fuel rest
    else linksOfGo fuel rest

def linksOf (s : Chars) : List (Chars × Chars) :=
  linksOfGo s.length s

/-! ## `fixReferences` (`reference-processor.js`) -/

structure RPConfig where
  confluenceBaseUrl : Chars
  confluenceSpaceKey : Chars
deriving DecidableEq, Repr

def isRemoteUrl (url : Chars) : Bool :=
  containsSub "/wiki/spaces/".toList url || startsWithL "http".toList url

/-- The eight candidate forms tried, in the source's order. -/
def pathVariations (baseDir url : Chars) : List Chars :=
  [ url,
    stripMd url,
    backslashToSlash (pathJoin baseDir url),
    backslashToSlash (stripMd (pathJoin baseDir url)),
    replaceFirstSub "./".toList url,
    stripMd (replaceFirstSub "./".toList url),
    backslashToSlash (pathNormalize (pathJoin baseDir url)),
    backslashToSlash (stripMd (pathNormalize (pathJoin baseDir url))) ]

def findFirstHit (pageMap : List (Chars × Chars)) : List Chars → Option Chars
  | [] => none
  | p :: ps =>
    match alGet pageMap p with
    | some pid => some pid
    | none => findFirstHit pageMap ps

def resolvePageId (pageMap : List (Chars × Chars)) (baseDir url : Chars) : Option Chars :=
  findFirstHit pageMap ((pathVariations baseDir url).map normalizePath)

def confluenceUrlFor (cfg : RPConfig) (skm : List (Chars × Chars)) (pid : Chars) : Chars :=
  let spaceKey :=
    match alGet skm pid with
    | some sk => if sk = [] then cfg.confluenceSpaceKey else sk
    | none => cfg.confluenceSpaceKey
  cfg.confluenceBaseUrl ++ "/wiki/spaces/".toList ++ spaceKey ++ "/pages/".toList ++ pid

/-- The replacement callback of `fixReferences`: remote links are kept, a
resolved local link becomes an absolute wiki URL, an unresolved one is kept. -/
def linkReplacement (pageMap skm : List (Chars × Chars)) (cfg : RPConfig) (baseDir : Chars)
    (text url : Chars) : Chars :=
  if isRemoteUrl url then '[' :: text ++ ']' :: '(' :: url ++ [')']
  else
    match resolvePageId pageMap baseDir url with
    | some pid => '[' :: text ++ ']' :: '(' :: confluenceUrlFor cfg skm pid ++ [')']
    | none => '[' :: text ++ ']' :: '(' :: url ++ [')']

/-- `fixReferences(content, pageMap, filePath, spaceKeyMap, config)`. -/
def fixReferences (content : Chars) (pageMap : List (Chars × Chars)) (filePath : Chars)
    (spaceKeyMap : List (Chars × Chars)) (config : RPConfig) : Chars :=
  let frontmatter := (parseFrontmatter content).1
  let cleanContent := (parseFrontmatter content).2
  let baseDir := dirname filePath
  let fixedContent := scanLinks (linkReplacement pageMap spaceKeyMap config baseDir) cleanContent
  updateFrontmatter fixedContent frontmatter

/-! ## Page-id extraction from publish output

Models the global regex
`/SUCCESS: (.+?) Content: .+?Page URL: https:\/\/coreljira\.atlassian\.net\/wiki\/spaces\/([^\/]+)\/pages\/(\d+)/g`
applied to the captured process output.  Since none of the matched fragments
may span a line break in the output format, matching is modelled per line. -/

/-- The literal the regex requires after the lazy middle part: note the
hard-coded base URL. -/
def successUrlLit : Chars :=
  "Page URL: https://coreljira.atlassian.net/wiki/spaces/".toList

/-- `breakOn` at the first occurrence that leaves a nonempty part before it,
modelling a lazy `(.+?)` before a literal. -/
def breakOn1 (pat : Chars) : Chars → Option (Chars × Chars)
  | [] => none
  | c :: rest =>
    match breakOn pat rest with
    | some (pre, post) => some (c :: pre, post)
    | none => none

/-- One attempted match of the SUCCESS-line regex on a line: returns the
relative path, the space key and the page id. -/
def matchSuccessLine (line : Chars) : Option (Chars × Chars × Chars) :=
  match breakOn "SUCCESS: ".toList line with
  | none => none
  | some (_, r1) =>
    match breakOn1 " Content: ".toList r1 with
    | none => none
    | some (p, r2) =>
      match breakOn1 successUrlLit r2 with
      | none => none
      | some (_, r3) =>
        let sp := r3.takeWhile (· ≠ '/')
        let r4 := r3.dropWhile (· ≠ '/')
        if sp = [] then none
        else if startsWithL "/pages/".toList r4 then
          let ds := (r4.drop 7).takeWhile (fun c => c.isDigit)
          if ds = [] then none else some (p, sp, ds)
        else none

/-- The extraction loop of `updateOriginalFiles` (`reference-processor.js`):
each matched line registers the path with its extension stripped and
normalized in `pageIdMap`, and the space key under the page id in
`spaceKeyMap`. -/
def extractPageIds (commandOutput : Chars) : List (Chars × Chars) × List (Chars × Chars) :=
  (splitLines commandOutput).foldl
    (fun maps line =>
      match matchSuccessLine line with
      | some psd => (alSet maps.1 (normalizePath (stripMd psd.1)) psd.2.2, alSet maps.2 psd.2.2 psd.2.1)
      | none => maps) ([], [])

/-- The extraction loop of `updatePageIds` (`confluence-publisher.js`): each
matched line registers the raw relative path with the page id and space key. -/
def extractPageIdsPub (output : Chars) : List (Chars × (Chars × Chars)) :=
  (splitLines output).foldl
    (fun m line =>
      match matchSuccessLine line with
      | some psd => alSet m psd.1 (psd.2.2, psd.2.1)
      | none => m) []

/-! ## The frontmatter merge of `updateOriginalFiles` (`reference-processor.js`) -/

/-- The `spaceKeyMap.get(pageId) || existing['connie-space-key'] || null`
fallback chain, with JavaScript truthiness. -/
def spaceKeyFallback (existing : FMv) : FmVal :=
  match alGet existing kSpaceKey with
  | some v => if truthy v then v else .null
  | none => .null

/-- The `newFrontmatter` object built for one document by
`updateOriginalFiles`: existing data spread first, publish identifiers merged
when the path matched, `connie-title` and `connie-dont-change-parent-page`
defaulted, and the blog-post-date / content-type rule applied last. -/
def newFrontmatterFor (existing : FMv) (entryName : Chars) (pageId : Option Chars)
    (skm : List (Chars × Chars)) : FMv :=
  let m0 := existing
  let m1 := match pageId with
    | some pid =>
      let a := alSet m0 kPageId (.str pid)
      let b := alSet a kPublish
        (match alGet existing kPublish with
         | some v => v
         | none => .bool true)
      alSet b kSpaceKey
        (match alGet skm pid with
         | some sk => if sk = [] then spaceKeyFallback existing else .str sk
         | none => spaceKeyFallback existing)
    | none => m0
  let m2 := alSet m1 kTitle
    (match alGet existing kTitle with
     | some v => if truthy v then v else .str (baseNameExt entryName ".md".toList)
     | none => .str (baseNameExt entryName ".md".toList))
  let m3 := alSet m2 kDontChangeParent
    (match alGet existing kDontChangeParent with
     | some v => if truthy v then v else .bool false
     | none => .bool false)
  match alGet existing kBlogDate with
  | some v =>
    if truthy v then
      alSet (alSet m3 kBlogDate v) kContentType (.str "blogpost".toList)
    else
      alSet m3 kContentType
        (match alGet existing kContentType with
         | some w => if truthy w then w else .str "page".toList
         | none => .str "page".toList)
  | none =>
    alSet m3 kContentType
      (match alGet existing kContentType with
       | some w => if truthy w then w else .str "page".toList
       | none => .str "page".toList)

/-- One markdown file as the `updateOriginalFiles` walk sees it: its path
relative to the walked root, its directory-entry name, and its parsed
frontmatter. -/
structure UOFile where
  relFilePath : Chars
  entryName : Chars
  frontmatter : FMv
deriving DecidableEq

/-- The frontmatter written back by `updateOriginalFiles` for every markdown
file of the walk (in walk order). -/
def updateOriginalFilesFM (pm skm : List (Chars × Chars)) (files : List UOFile) : List FMv :=
  files.map (fun f =>
    newFrontmatterFor f.frontmatter f.entryName
      (alGet pm (normalizePath (stripMd f.relFilePath))) skm)

/-! ## `buildPageIdMap` (`reference-processor.js`) -/

/-- Walks the documents in traversal order; a document with a truthy
`connie-page-id` registers it under its normalized path, its normalized
extension-stripped path, and its parent directory unless that is `"."`. -/
def buildPageIdMap (docs : List (Chars × FMv)) : List (Chars × FmVal) :=
  docs.foldl (fun pageMap doc =>
    match alGet doc.2 kPageId with
    | some v =>
      if truthy v then
        let normalized := normalizePath doc.1
        let normalizedBase := normalizePath (stripMd doc.1)
        let m1 := alSet pageMap normalized v
        let m2 := alSet m1 normalizedBase v
        let parentDir := dirname normalized
        if parentDir = ".".toList then m2 else alSet m2 parentDir v
      else pageMap
    | none => pageMap) []

/-- The page id a single document contributes for key `k`, if any. -/
def registeredValue (doc : Chars × FMv) (k : Chars) : Option FmVal :=
  match alGet doc.2 kPageId with
  | some v =>
    if truthy v ∧ (k = normalizePath doc.1 ∨ k = normalizePath (stripMd doc.1) ∨
        (dirname (normalizePath doc.1) ≠ ".".toList ∧ k = dirname (normalizePath doc.1)))
    then some v else none
  | none => none

/-- The page id of the last document (in traversal order) registering `k`. -/
def lastRegistrant (docs : List (Chars × FMv)) (k : Chars) : Option FmVal :=
  docs.foldl (fun acc doc =>
    match registeredValue doc k with
    | some v => some v
    | none => acc) none

/-! ## The orchestrator (`confluence-publisher.js`) -/

/-- The slice of `.markdown-confluence.json` the publisher reads and writes:
the ignore list (`none` when the key is absent) and the content root. -/
structure PubConfig where
  ignore : Option (List Chars)
  contentRoot : Option Chars
deriving DecidableEq

/-- Lines 91-101 of `confluence-publisher.js`: default the ignore list and
append the image directories when absent. -/
def addIgnorePatterns (c : PubConfig) : PubConfig :=
  let ig0 := c.ignore.getD []
  let ig1 := if "images".toList ∈ ig0 then ig0 else ig0 ++ ["images".toList]
  let ig2 := if "assets/images".toList ∈ ig1 then ig1 else ig1 ++ ["assets/images".toList]
  { c with ignore := some ig2 }

def fixedRefsDirName : Chars := "docs-fixed-references".toList

/-- A markdown file of the original tree, keyed by its path relative to the
docs folder. -/
structure PubFile where
  relPath : Chars
  frontmatter : FMv
deriving DecidableEq

/-- The frontmatter rewrite `processFile` applies in `updatePageIds` when a
file's relative path matched a SUCCESS line. -/
def pubProcessFileFM (existing : FMv) (filePath : Chars) (pid sk : Chars) : FMv :=
  let a := alSet existing kPageId (.str pid)
  let b := alSet a kPublish (.bool true)
  let c := alSet b kSpaceKey (.str sk)
  let d := alSet c kDontChangeParent (.bool false)
  let needsTitle :=
    match alGet existing kTitle with
    | some (.str s) => (trimChars s).isEmpty
    | some (.bool bv) => !bv
    | some .null => true
    | none => true
  if needsTitle then alSet d kTitle (.str (baseNameExt filePath ".md".toList)) else d

/-- `updatePageIds(docsFolder, output)`: parse the output, rewrite every
matched file, and report whether any file matched at all (the returned
`hasNewIds`). -/
def updatePageIds (files : List PubFile) (output : Chars) : Bool × List PubFile :=
  let m := extractPageIdsPub output
  (files.any (fun f => (alGet m f.relPath).isSome),
   files.map (fun f =>
     match alGet m f.relPath with
     | some info => { f with frontmatter := pubProcessFileFM f.frontmatter f.relPath info.1 info.2 }
     | none => f))

/-- Formalizes the spec's notion behind `hasNewIds`: some identifier was
assigned to a document that did not already carry that identifier. -/
def newlyAssignedB (files : List PubFile) (output : Chars) : Bool :=
  files.any (fun f =>
    match alGet (extractPageIdsPub output) f.relPath with
    | some info => if alGet f.frontmatter kPageId = some (.str info.1) then false else true
    | none => false)

inductive PubOutcome where
  | ok
  | errConfigRead
  | errMirrorMissing
  | errPublish
deriving DecidableEq, Repr

/-- The world `publishToConfluence` touches: the parsed on-disk configuration
file (`none` = unreadable), whether the mirror directory exists, the original
tree's markdown files, and whether the second publish was invoked. -/
structure PubState where
  configFile : Option PubConfig
  mirrorExists : Bool
  files : List PubFile
  secondPublishInvoked : Bool
deriving DecidableEq

/-- `publishToConfluence(docsFolder)` as a state transformer.  The external
publish results are parameters: `firstPublishOutput = none` models the first
`execSync` throwing, `secondPublishFails` the second.  The `finally` block —
write `originalConfig` back and remove the mirror — runs for every path
after the configuration was read; a configuration read failure throws before
the `try` and changes nothing. -/
def publishToConfluence (s : PubState) (firstPublishOutput : Option Chars)
    (secondPublishFails : Bool) : PubOutcome × PubState :=
  match s.configFile with
  | none => (.errConfigRead, s)
  | some config0 =>
    let config1 := addIgnorePatterns config0
    let s1 : PubState :=
      { s with
        configFile := some { config1 with contentRoot := some fixedRefsDirName },
        secondPublishInvoked := false }
    let step : PubOutcome × PubState :=
      if s1.mirrorExists = false then (.errMirrorMissing, s1)
      else
        match firstPublishOutput with
        | none => (.errPublish, s1)
        | some output =>
          let r := updatePageIds s1.files output
          let s2 := { s1 with files := r.2 }
          if r.1 then
            let s3 := { s2 with mirrorExists := true, secondPublishInvoked := true }
            if secondPublishFails then (.errPublish, s3) else (.ok, s3)
          else (.ok, s2)
    (step.1, { step.2 with configFile := some config1, mirrorExists := false })

/-! ## Association-list lemmas -/

theorem alGet_alSet_same {β : Type} (m : List (Chars × β)) (k : Chars) (v : β) :
    alGet (alSet m k v) k = some v := by
  induction m with
  | nil => simp [alSet, alGet]
  | cons kv rest ih =>
    obtain ⟨k', v'⟩ := kv
    by_cases h : k' = k
    · simp [alSet, alGet, h]
    · simp [alSet, alGet, h, ih]

theorem alGet_alSet_other {β : Type} (m : List (Chars × β)) (k k' : Chars) (v : β)
    (h : k' ≠ k) : alGet (alSet m k v) k' = alGet m k' := by
  have h2 : k ≠ k' := Ne.symm h
  induction m with
  | nil => simp [alSet, alGet, h2]
  | cons kv rest ih =>
    obtain ⟨k0, v0⟩ := kv
    by_cases h0 : k0 = k
    · subst h0
      simp [alSet, alGet, h2]
    · simp only [alSet, if_neg h0]
      by_cases h1 : k0 = k'
      · simp [alGet, h1]
      · simp [alGet, h1, ih]

theorem alSet_ne_nil {β : Type} (m : List (Chars × β)) (k : Chars) (v : β) :
    alSet m k v ≠ [] := by
  cases m with
  | nil => simp [alSet]
  | cons kv rest =>
    obtain ⟨k', v'⟩ := kv
    by_cases h : k' = k <;> simp [alSet, h]

theorem alSet_self {β : Type} (m : List (Chars × β)) (k : Chars) (v : β)
    (h : alGet m k = some v) : alSet m k v = m := by
  induction m with
  | nil => simp [alGet] at h
  | cons kv rest ih =>
    obtain ⟨k', v'⟩ := kv
    by_cases h0 : k' = k
    · subst h0
      simp [alGet] at h
      simp [alSet, h]
    · simp [alGet, h0] at h
      simp [alSet, h0, ih h]

theorem alSet_append_of_not_mem {β : Type} (m : List (Chars × β)) (k : Chars) (v : β)
    (h : k ∉ m.map Prod.fst) : alSet m k v = m ++ [(k, v)] := by
  induction m with
  | nil => simp [alSet]
  | cons kv rest ih =>
    obtain ⟨k', v'⟩ := kv
    simp only [List.map_cons, List.mem_cons, not_or] at h
    simp [alSet, Ne.symm h.1, ih h.2]

theorem mem_alSet {β : Type} {m : List (Chars × β)} {k : Chars} {v : β} {p : Chars × β}
    (h : p ∈ alSet m k v) : p ∈ m ∨ p = (k, v) := by
  induction m with
  | nil =>
    simp [alSet] at h
    exact Or.inr h
  | cons kv rest ih =>
    obtain ⟨k', v'⟩ := kv
    by_cases h0 : k' = k
    · simp only [alSet, if_pos h0] at h
      rcases List.mem_cons.mp h with h | h
      · exact Or.inr h
      · exact Or.inl (List.mem_cons_of_mem _ h)
    · simp only [alSet, if_neg h0] at h
      rcases List.mem_cons.mp h with h | h
      · exact Or.inl (by simp [h])
      · rcases ih h with h1 | h1
        · exact Or.inl (List.mem_cons_of_mem _ h1)
        · exact Or.inr h1

theorem keys_alSet {β : Type} (m : List (Chars × β)) (k : Chars) (v : β) :
    (alSet m k v).map Prod.fst =
      if k ∈ m.map Prod.fst then m.map Prod.fst else m.map Prod.fst ++ [k] := by
  induction m with
  | nil => simp [alSet]
  | cons kv rest ih =>
    obtain ⟨k', v'⟩ := kv
    by_cases h0 : k' = k
    · simp only [alSet]
      rw [if_pos h0]
      simp only [List.map_cons]
      have hmem : k ∈ k' :: rest.map Prod.fst := by
        rw [h0]
        exact List.mem_cons_self k (rest.map Prod.fst)
      rw [if_pos hmem, h0]
    · have h3 : ¬k = k' := Ne.symm h0
      simp only [alSet, if_neg h0, List.map_cons, ih, List.mem_cons]
      by_cases h1 : k ∈ rest.map Prod.fst
      · simp [h1]
      · simp [h1, h3]

theorem nodupKeys_alSet {β : Type} (m : List (Chars × β)) (k : Chars) (v : β)
    (h : nodupKeys m) : nodupKeys (alSet m k v) := by
  unfold nodupKeys at h ⊢
  rw [keys_alSet]
  by_cases h1 : k ∈ m.map Prod.fst
  · simpa [h1] using h
  · simp only [h1, if_false]
    rw [List.nodup_append]
    refine ⟨h, by simp, ?_⟩
    intro a ha hb
    simp at hb
    exact h1 (hb ▸ ha)

theorem nodupKeys_foldl {β γ : Type} (g : List (Chars × β) → γ → List (Chars × β))
    (hg : ∀ m x, nodupKeys m → nodupKeys (g m x)) (l : List γ)
    (acc : List (Chars × β)) (h : nodupKeys acc) : nodupKeys (l.foldl g acc) := by
  induction l generalizing acc with
  | nil => exact h
  | cons x xs ih => exact ih (g acc x) (hg acc x h)

/-! ## Merge (`{...a, ...d}`) lemmas -/

theorem mergeFm_nil_data (a : List (Chars × Chars)) : mergeFm a [] = a := rfl

theorem mergeFm_ne_nil (a : List (Chars × Chars)) {d : List (Chars × Chars)}
    (hd : d ≠ []) : mergeFm a d ≠ [] := by
  induction d generalizing a with
  | nil => exact absurd rfl hd
  | cons kv d' ih =>
    by_cases h : d' = []
    · subst h
      simpa [mergeFm] using alSet_ne_nil a kv.1 kv.2
    · exact ih (alSet a kv.1 kv.2) h

theorem mem_mergeFm {a d : List (Chars × Chars)} {p : Chars × Chars}
    (h : p ∈ mergeFm a d) : p ∈ a ∨ p ∈ d := by
  induction d generalizing a with
  | nil => exact Or.inl h
  | cons kv d' ih =>
    rcases ih (a := alSet a kv.1 kv.2) h with h1 | h1
    · rcases mem_alSet h1 with h2 | h2
      · exact Or.inl h2
      · right; simp [h2]
    · right; simp [h1]

theorem mergeFm_eq_append (pre d : List (Chars × Chars))
    (h : (pre.map Prod.fst ++ d.map Prod.fst).Nodup) : mergeFm pre d = pre ++ d := by
  induction d generalizing pre with
  | nil => simp [mergeFm]
  | cons kv d' ih =>
    obtain ⟨k, v⟩ := kv
    have hnotin : k ∉ pre.map Prod.fst := by
      simp only [List.map_cons, List.nodup_append] at h
      intro hk
      exact h.2.2 hk (by simp)
    have hstep : alSet pre k v = pre ++ [(k, v)] := alSet_append_of_not_mem pre k v hnotin
    have h' : ((pre ++ [(k, v)]).map Prod.fst ++ d'.map Prod.fst).Nodup := by
      simp only [List.map_append, List.map_cons, List.map_nil] at h ⊢
      simpa [List.append_assoc] using h
    calc mergeFm pre ((k, v) :: d') = mergeFm (pre ++ [(k, v)]) d' := by
          simp [mergeFm, hstep]
      _ = (pre ++ [(k, v)]) ++ d' := ih (pre ++ [(k, v)]) h'
      _ = pre ++ (k, v) :: d' := by simp

theorem mergeFm_nil_left (d : List (Chars × Chars)) (h : nodupKeys d) :
    mergeFm [] d = d := by
  simpa using mergeFm_eq_append [] d (by simpa [nodupKeys] using h)

theorem mergeFm_nodup (a d : List (Chars × Chars)) (h : nodupKeys a) :
    nodupKeys (mergeFm a d) := by
  unfold mergeFm
  exact nodupKeys_foldl _ (fun m kv hm => nodupKeys_alSet m kv.1 kv.2 hm) d a h

theorem mergeFm_step (a : List (Chars × Chars)) (kv : Chars × Chars)
    (d : List (Chars × Chars)) :
    mergeFm a (kv :: d) = mergeFm (alSet a kv.1 kv.2) d := by
  simp [mergeFm]

theorem alGet_mergeFm_not_mem (d : List (Chars × Chars)) :
    ∀ (a : List (Chars × Chars)) (k : Chars), k ∉ d.map Prod.fst →
      alGet (mergeFm a d) k = alGet a k := by
  induction d with
  | nil => intro a k _; rfl
  | cons kv d' ih =>
    intro a k h
    simp only [List.map_cons, List.mem_cons, not_or] at h
    rw [mergeFm_step, ih (alSet a kv.1 kv.2) k h.2, alGet_alSet_other _ _ _ _ h.1]

theorem alGet_mergeFm_mem (d : List (Chars × Chars)) :
    ∀ (a : List (Chars × Chars)) (k v : Chars), nodupKeys d → (k, v) ∈ d →
      alGet (mergeFm a d) k = some v := by
  induction d with
  | nil => intro a k v _ h; simp at h
  | cons kv d' ih =>
    intro a k v hnd h
    obtain ⟨k0, v0⟩ := kv
    rcases List.mem_cons.mp h with h | h
    · rw [Prod.mk.injEq] at h
      obtain ⟨hk0, hv0⟩ := h
      subst hk0; subst hv0
      have h2 : (k :: d'.map Prod.fst).Nodup := by simpa [nodupKeys] using hnd
      have hk : k ∉ d'.map Prod.fst := (List.nodup_cons.mp h2).1
      rw [mergeFm_step, alGet_mergeFm_not_mem d' (alSet a k v) k hk]
      exact alGet_alSet_same a k v
    · have h2 : (k0 :: d'.map Prod.fst).Nodup := by simpa [nodupKeys] using hnd
      have hnd' : nodupKeys d' := (List.nodup_cons.mp h2).2
      rw [mergeFm_step]
      exact ih (alSet a k0 v0) k v hnd' h

theorem mergeFm_self_of_fixed (d : List (Chars × Chars)) :
    ∀ (m : List (Chars × Chars)), (∀ kv ∈ d, alGet m kv.1 = some kv.2) →
      mergeFm m d = m := by
  induction d with
  | nil => intro m _; rfl
  | cons kv d' ih =>
    intro m h
    have h1 : alSet m kv.1 kv.2 = m := alSet_self m kv.1 kv.2 (h kv (by simp))
    rw [mergeFm_step, h1]
    exact ih m (fun kv' hkv' => h kv' (by simp [hkv']))

theorem mergeFm_idem (a d : List (Chars × Chars)) (hnd : nodupKeys d) :
    mergeFm (mergeFm a d) d = mergeFm a d := by
  refine mergeFm_self_of_fixed d _ (fun kv hkv => ?_)
  exact alGet_mergeFm_mem d a kv.1 kv.2 hnd hkv

/-! ## Line-splitting lemmas -/

theorem splitLines_ne_nil (s : Chars) : splitLines s ≠ [] := by
  cases s with
  | nil => simp [splitLines]
  | cons c rest =>
    by_cases h : c = '\n'
    · simp [splitLines, h]
    · simp only [splitLines, if_neg h]
      cases hs : splitLines rest with
      | nil => simp
      | cons l ls => simp

theorem splitLines_nl (s : Chars) : splitLines ('\n' :: s) = [] :: splitLines s := by
  simp [splitLines]

theorem splitLines_cons_ne (c : Char) (s : Chars) (hc : ¬c = '\n') :
    splitLines (c :: s) = (c :: (splitLines s).headI) :: (splitLines s).tail := by
  simp only [splitLines, if_neg hc]
  cases hs : splitLines s with
  | nil => exact absurd hs (splitLines_ne_nil s)
  | cons l ls => simp

theorem mem_splitLines_no_nl (s : Chars) : ∀ l ∈ splitLines s, '\n' ∉ l := by
  induction s with
  | nil =>
    intro l hl
    simp [splitLines] at hl
    simp [hl]
  | cons c rest ih =>
    intro l hl
    by_cases hc : c = '\n'
    · subst hc
      rw [splitLines_nl] at hl
      rcases List.mem_cons.mp hl with h | h
      · simp [h]
      · exact ih l h
    · rw [splitLines_cons_ne c rest hc] at hl
      cases hs : splitLines rest with
      | nil => exact absurd hs (splitLines_ne_nil rest)
      | cons l0 ls =>
        rw [hs] at hl
        simp only [List.headI, List.tail] at hl
        rcases List.mem_cons.mp hl with h | h
        · subst h
          intro hmem
          rcases List.mem_cons.mp hmem with h2 | h2
          · exact hc h2.symm
          · exact ih l0 (by rw [hs]; exact List.mem_cons_self _ _) h2
        · exact ih l (by rw [hs]; exact List.mem_cons_of_mem _ h)

theorem joinLines_splitLines (s : Chars) : joinLines (splitLines s) = s := by
  induction s with
  | nil => simp [splitLines, joinLines]
  | cons c rest ih =>
    by_cases hc : c = '\n'
    · subst hc
      rw [splitLines_nl]
      cases hs : splitLines rest with
      | nil => exact absurd hs (splitLines_ne_nil rest)
      | cons l ls =>
        rw [hs] at ih
        simp [joinLines, ih]
    · rw [splitLines_cons_ne c rest hc]
      cases hs : splitLines rest with
      | nil => exact absurd hs (splitLines_ne_nil rest)
      | cons l ls =>
        rw [hs] at ih
        cases ls with
        | nil => simpa [joinLines] using congrArg (c :: ·) ih
        | cons l2 ls2 =>
          simp only [List.headI, List.tail]
          simp only [joinLines] at ih ⊢
          rw [← ih]
          simp

theorem splitLines_append (a b : Chars) (ha : '\n' ∉ a) :
    splitLines (a ++ '\n' :: b) = a :: splitLines b := by
  induction a with
  | nil => simpa using splitLines_nl b
  | cons c a' ih =>
    have hc : ¬c = '\n' := by
      intro h
      exact ha (by simp [h])
    have ha' : '\n' ∉ a' := fun h => ha (by simp [h])
    rw [List.cons_append, splitLines_cons_ne c _ hc, ih ha']
    simp [List.headI, List.tail]

theorem splitLines_head_concat (s : Chars) :
    (splitLines (s ++ ['\n'])).head? = (splitLines s).head? := by
  induction s with
  | nil => simp [splitLines]
  | cons c rest ih =>
    by_cases hc : c = '\n'
    · subst hc
      rw [List.cons_append, splitLines_nl, splitLines_nl]
      simp
    · rw [List.cons_append, splitLines_cons_ne c _ hc, splitLines_cons_ne c _ hc]
      cases h1 : splitLines (rest ++ ['\n']) with
      | nil => exact absurd h1 (splitLines_ne_nil _)
      | cons l1 ls1 =>
        cases h2 : splitLines rest with
        | nil => exact absurd h2 (splitLines_ne_nil _)
        | cons l2 ls2 =>
          rw [h1, h2] at ih
          simp only [List.head?] at ih
          have hl : l1 = l2 := by injection ih
          simp [List.headI, hl]

theorem splitLines_head_ensureNl (s : Chars) :
    (splitLines (ensureNl s)).head? = (splitLines s).head? := by
  unfold ensureNl
  by_cases h : s.getLast? = some '\n'
  · rw [if_pos h]
  · rw [if_neg h]
    exact splitLines_head_concat s

theorem dumpLine_no_nl (kv : Chars × Chars) (h1 : '\n' ∉ kv.1) (h2 : '\n' ∉ kv.2) :
    '\n' ∉ dumpLine kv := by
  unfold dumpLine
  intro h
  rcases List.mem_append.mp h with h | h
  · rcases List.mem_append.mp h with h | h
    · exact h1 h
    · simp [String.toList] at h
  · exact h2 h

theorem dumpLine_ne_delim (kv : Chars × Chars) : dumpLine kv ≠ fmDelim := by
  intro h
  have hc : (':' : Char) ∈ dumpLine kv := by
    unfold dumpLine
    simp [String.toList]
  rw [h] at hc
  simp [fmDelim, String.toList] at hc

theorem splitLines_dumpBlock (m : List (Chars × Chars)) (r : Chars)
    (hwf : ∀ kv ∈ m, '\n' ∉ kv.1 ∧ '\n' ∉ kv.2) :
    splitLines (dumpBlock m ++ r) = m.map dumpLine ++ splitLines r := by
  induction m with
  | nil => simp [dumpBlock]
  | cons kv m' ih =>
    have hkv := hwf kv (by simp)
    have hnl : '\n' ∉ dumpLine kv := dumpLine_no_nl kv hkv.1 hkv.2
    have step : dumpBlock (kv :: m') ++ r = dumpLine kv ++ '\n' :: (dumpBlock m' ++ r) := by
      simp [dumpBlock]
    rw [step, splitLines_append _ _ hnl, ih (fun kv' h' => hwf kv' (by simp [h']))]
    simp

theorem splitAtDelim_append (ls rest : List Chars) (h : ∀ l ∈ ls, l ≠ fmDelim) :
    splitAtDelim (ls ++ fmDelim :: rest) = some (ls, rest) := by
  induction ls with
  | nil => simp [splitAtDelim]
  | cons l ls' ih =>
    have hl : l ≠ fmDelim := h l (by simp)
    rw [List.cons_append]
    simp only [splitAtDelim, if_neg hl]
    rw [ih (fun l' h' => h l' (by simp [h']))]

theorem splitAtDelim_mem (ls : List Chars) :
    ∀ a b, splitAtDelim ls = some (a, b) → ∀ l ∈ a, l ∈ ls := by
  induction ls with
  | nil => intro a b h; simp [splitAtDelim] at h
  | cons l0 ls' ih =>
    intro a b h l hl
    by_cases h0 : l0 = fmDelim
    · simp only [splitAtDelim, if_pos h0] at h
      injection h with h
      injection h with ha hb
      subst ha
      simp at hl
    · simp only [splitAtDelim, if_neg h0] at h
      cases hs : splitAtDelim ls' with
      | none => rw [hs] at h; simp at h
      | some ab =>
        obtain ⟨a', b'⟩ := ab
        rw [hs] at h
        simp at h
        obtain ⟨ha, hb⟩ := h
        subst hb
        rw [← ha] at hl
        rcases List.mem_cons.mp hl with h1 | h1
        · simp [h1]
        · exact List.mem_cons_of_mem _ (ih a' b' hs l h1)

/-! ## First-occurrence facts about `breakOn` and the metadata-line roundtrip -/

theorem breakOn_eq_append (pat : Chars) (s : Chars) :
    ∀ a b, breakOn pat s = some (a, b) → s = a ++ pat ++ b := by
  induction s with
  | nil =>
    intro a b h
    by_cases hp : pat = []
    · subst hp
      simp [breakOn] at h
      obtain ⟨ha, hb⟩ := h
      subst ha; subst hb
      simp
    · simp [breakOn, hp] at h
  | cons c rest ih =>
    intro a b h
    simp only [breakOn] at h
    by_cases hs : startsWithL pat (c :: rest) = true
    · rw [if_pos hs] at h
      obtain ⟨t, ht⟩ := startsWithL_eq_append pat (c :: rest) hs
      injection h with h5
      injection h5 with ha hb
      subst ha
      rw [ht] at hb ⊢
      rw [List.drop_left] at hb
      rw [← hb]
      simp
    · rw [if_neg hs] at h
      cases hbo : breakOn pat rest with
      | none => rw [hbo] at h; simp at h
      | some pr =>
        obtain ⟨pre, post⟩ := pr
        rw [hbo] at h
        injection h with h5
        injection h5 with ha hb
        have hdec := ih pre post hbo
        rw [← ha, ← hb, hdec]
        simp

theorem containsSub_cons_of (pat : Chars) (c : Char) (s : Chars)
    (h : containsSub pat s = true) : containsSub pat (c :: s) = true := by
  unfold containsSub at h ⊢
  rw [breakOn]
  by_cases hs : startsWithL pat (c :: s) = true
  · simp [hs]
  · obtain ⟨⟨pre, post⟩, hp⟩ := Option.isSome_iff_exists.mp h
    simp [hs, hp]

theorem breakOn_clean (pat : Chars) (hp : pat ≠ []) (s : Chars) :
    ∀ a b, breakOn pat s = some (a, b) → containsSub pat a = false := by
  induction s with
  | nil =>
    intro a b h
    simp [breakOn, hp] at h
  | cons c rest ih =>
    intro a b h
    simp only [breakOn] at h
    by_cases hs : startsWithL pat (c :: rest) = true
    · rw [if_pos hs] at h
      injection h with h5
      injection h5 with ha hb
      rw [← ha]
      simp [containsSub, breakOn, hp]
    · rw [if_neg hs] at h
      cases hbo : breakOn pat rest with
      | none => rw [hbo] at h; simp at h
      | some pr =>
        obtain ⟨pre, post⟩ := pr
        rw [hbo] at h
        injection h with h5
        injection h5 with ha hb
        rw [← ha]
        have hclean : containsSub pat pre = false := ih pre post hbo
        unfold containsSub
        rw [breakOn]
        have hs2 : ¬ startsWithL pat (c :: pre) = true := by
          intro hstart
          have hdec : rest = pre ++ pat ++ post := breakOn_eq_append pat rest pre post hbo
          have : startsWithL pat ((c :: pre) ++ (pat ++ post)) = true :=
            startsWithL_append pat (c :: pre) (pat ++ post) hstart
          rw [show (c :: pre) ++ (pat ++ post) = c :: rest by simp [hdec]] at this
          exact hs this
    
        rw [if_neg hs2]
        unfold containsSub at hclean
        cases hbp : breakOn pat pre with
        | none => simp
        | some pr2 => rw [hbp] at hclean; simp at hclean

theorem breakOn_colon_line (v : Chars) : ∀ k : Chars, containsSub ": ".toList k = false →
    breakOn ": ".toList (k ++ ": ".toList ++ v) = some (k, v) := by
  intro k
  induction k with
  | nil =>
    intro _
    simpa using breakOn_self_append ": ".toList v
  | cons c k' ih =>
    intro hcl
    have hcl' : containsSub ": ".toList k' = false := by
      by_cases h2 : containsSub ": ".toList k' = true
      · rw [containsSub_cons_of _ c _ h2] at hcl
        exact absurd hcl (by simp)
      · simpa using h2
    have hns : ¬ startsWithL ": ".toList (c :: (k' ++ ": ".toList ++ v)) = true := by
      cases k' with
      | nil =>
        intro h
        simp [String.toList, startsWithL] at h
      | cons d k'' =>
        intro h
        simp only [String.toList] at h
        simp only [List.cons_append, List.append_assoc, startsWithL, Bool.and_eq_true,
          decide_eq_true_eq] at h
        obtain ⟨hc, hd, -⟩ := h
        have : containsSub ": ".toList (c :: d :: k'') = true := by
          have hshape : c :: d :: k'' = ([] : Chars) ++ ": ".toList ++ k'' := by
            simp [String.toList]
            exact ⟨hc.symm, hd.symm⟩
          rw [hshape]
          exact containsSub_of_append ": ".toList [] k''
        rw [this] at hcl
        exact absurd hcl (by simp)
    have hshape : (c :: k') ++ ": ".toList ++ v = c :: (k' ++ ": ".toList ++ v) := by simp
    rw [hshape, breakOn, if_neg hns, ih hcl']

/-! ## `parseBlock` and `matterParse` structure lemmas -/

theorem foldl_mem_aux {γ : Type} (step : List (Chars × Chars) → γ → List (Chars × Chars))
    (P : γ → Chars × Chars → Prop)
    (hstep : ∀ m x p, p ∈ step m x → p ∈ m ∨ P x p) (ls : List γ) :
    ∀ acc p, p ∈ ls.foldl step acc → p ∈ acc ∨ ∃ x ∈ ls, P x p := by
  induction ls with
  | nil => intro acc p h; exact Or.inl h
  | cons x xs ih =>
    intro acc p h
    rcases ih (step acc x) p h with h1 | h1
    · rcases hstep acc x p h1 with h2 | h2
      · exact Or.inl h2
      · exact Or.inr ⟨x, by simp, h2⟩
    · obtain ⟨x', hx', hp⟩ := h1
      exact Or.inr ⟨x', by simp [hx'], hp⟩

theorem parseBlock_mem (ls : List Chars) (kv : Chars × Chars) (h : kv ∈ parseBlock ls) :
    ∃ l ∈ ls, parseLineKV l = some kv := by
  unfold parseBlock at h
  have hstep : ∀ m x p, p ∈ (match parseLineKV x with
      | some kv' => alSet m kv'.1 kv'.2
      | none => m) → p ∈ m ∨ parseLineKV x = some p := by
    intro m x p hp
    cases hx : parseLineKV x with
    | none =>
      rw [hx] at hp
      exact Or.inl hp
    | some kv' =>
      rw [hx] at hp
      rcases mem_alSet hp with h1 | h1
      · exact Or.inl h1
      · right
        rw [h1]
  rcases foldl_mem_aux _ (fun l p => parseLineKV l = some p) hstep ls [] kv h with h1 | h1
  · simp at h1
  · exact h1

theorem parseBlock_nodup (ls : List Chars) : nodupKeys (parseBlock ls) := by
  unfold parseBlock
  refine nodupKeys_foldl _ ?_ ls [] (by simp [nodupKeys])
  intro m x hm
  cases hx : parseLineKV x with
  | none => simpa [hx] using hm
  | some kv => simpa [hx] using nodupKeys_alSet m kv.1 kv.2 hm

theorem parseBlock_wf (ls : List Chars) (hls : ∀ l ∈ ls, '\n' ∉ l) :
    ∀ kv ∈ parseBlock ls,
      containsSub ": ".toList kv.1 = false ∧ '\n' ∉ kv.1 ∧ '\n' ∉ kv.2 := by
  intro kv hkv
  obtain ⟨k, v⟩ := kv
  obtain ⟨l, hl, hparse⟩ := parseBlock_mem ls (k, v) hkv
  have hne : ": ".toList ≠ [] := by simp [String.toList]
  have hdec := breakOn_eq_append ": ".toList l k v hparse
  refine ⟨breakOn_clean ": ".toList hne l k v hparse, ?_, ?_⟩
  · intro hnl
    exact hls l hl (by rw [hdec]; simp [hnl])
  · intro hnl
    exact hls l hl (by rw [hdec]; simp [hnl])

theorem parseLineKV_dumpLine (k v : Chars) (hk : containsSub ": ".toList k = false) :
    parseLineKV (dumpLine (k, v)) = some (k, v) := by
  unfold parseLineKV dumpLine
  exact breakOn_colon_line v k hk

theorem parseBlock_dump_aux (m : List (Chars × Chars)) :
    ∀ acc, (∀ kv ∈ m, containsSub ": ".toList kv.1 = false) →
      m.foldl (fun acc kv =>
        match parseLineKV (dumpLine kv) with
        | some kv' => alSet acc kv'.1 kv'.2
        | none => acc) acc = mergeFm acc m := by
  induction m with
  | nil => intro acc _; rfl
  | cons kv m' ih =>
    intro acc hwf
    obtain ⟨k, v⟩ := kv
    have hline : parseLineKV (dumpLine (k, v)) = some (k, v) :=
      parseLineKV_dumpLine k v (hwf (k, v) (by simp))
    simp only [List.foldl_cons, hline]
    rw [mergeFm_step]
    exact ih _ (fun kv' h' => hwf kv' (by simp [h']))

theorem parseBlock_dumpBlock (m : List (Chars × Chars)) (hnd : nodupKeys m)
    (hwf : ∀ kv ∈ m, containsSub ": ".toList kv.1 = false) :
    parseBlock (m.map dumpLine) = m := by
  unfold parseBlock
  rw [List.foldl_map]
  exact (parseBlock_dump_aux m [] hwf).trans (mergeFm_nil_left m hnd)

theorem matterParse_eq_of_splitLines (s : Chars) (l0 : Chars) (rest : List Chars)
    (hs : splitLines s = l0 :: rest) :
    matterParse s = if l0 = fmDelim then
      (match splitAtDelim rest with
       | some ba => (parseBlock ba.1, joinLines ba.2)
       | none => (parseBlock rest, [])) else ([], s) := by
  unfold matterParse
  rw [hs]
  show (if l0 = fmDelim then
      match splitAtDelim rest with
      | some (block, after) => (parseBlock block, joinLines after)
      | none => (parseBlock rest, [])
    else ([], s)) = _
  by_cases h0 : l0 = fmDelim
  · rw [if_pos h0, if_pos h0]
    cases hd : splitAtDelim rest with
    | none => rfl
    | some ba =>
      obtain ⟨b1, b2⟩ := ba
      rfl
  · rw [if_neg h0, if_neg h0]

theorem matterParse_of_head_ne (s : Chars) (h : (splitLines s).head? ≠ some fmDelim) :
    matterParse s = ([], s) := by
  cases hs : splitLines s with
  | nil => exact absurd hs (splitLines_ne_nil s)
  | cons l0 rest =>
    rw [hs] at h
    simp only [List.head?] at h
    have h0 : ¬l0 = fmDelim := fun he => h (by rw [he])
    rw [matterParse_eq_of_splitLines s l0 rest hs, if_neg h0]

theorem matterParse_nodup (s : Chars) : nodupKeys (matterParse s).1 := by
  cases hs : splitLines s with
  | nil => exact absurd hs (splitLines_ne_nil s)
  | cons l0 rest =>
    rw [matterParse_eq_of_splitLines s l0 rest hs]
    by_cases h0 : l0 = fmDelim
    · rw [if_pos h0]
      cases hd : splitAtDelim rest with
      | none => exact parseBlock_nodup rest
      | some ba => exact parseBlock_nodup ba.1
    · rw [if_neg h0]
      simp [nodupKeys]

theorem matterParse_wf (s : Chars) :
    ∀ kv ∈ (matterParse s).1,
      containsSub ": ".toList kv.1 = false ∧ '\n' ∉ kv.1 ∧ '\n' ∉ kv.2 := by
  cases hs : splitLines s with
  | nil => exact absurd hs (splitLines_ne_nil s)
  | cons l0 rest =>
    rw [matterParse_eq_of_splitLines s l0 rest hs]
    have hrest : ∀ l ∈ rest, '\n' ∉ l := fun l hl =>
      mem_splitLines_no_nl s l (by rw [hs]; exact List.mem_cons_of_mem _ hl)
    by_cases h0 : l0 = fmDelim
    · rw [if_pos h0]
      cases hd : splitAtDelim rest with
      | none =>
        intro kv hkv
        exact parseBlock_wf rest hrest kv hkv
      | some ba =>
        obtain ⟨block, after⟩ := ba
        intro kv hkv
        have hblock : ∀ l ∈ block, '\n' ∉ l := fun l hl =>
          hrest l (splitAtDelim_mem rest block after hd l hl)
        exact parseBlock_wf block hblock kv hkv
    · rw [if_neg h0]
      intro kv hkv
      simp at hkv

theorem matterParse_stringify (body : Chars) (m : List (Chars × Chars)) (hm : m ≠ [])
    (hwf : ∀ kv ∈ m, containsSub ": ".toList kv.1 = false ∧ '\n' ∉ kv.1 ∧ '\n' ∉ kv.2)
    (hnd : nodupKeys m) :
    matterParse (matterStringify body m) = (m, ensureNl body) := by
  have hnlf : ('\n' : Char) ∉ fmDelim := by decide
  have h3 : splitLines (fmDelim ++ '\n' :: ensureNl body)
      = fmDelim :: splitLines (ensureNl body) := splitLines_append _ _ hnlf
  have h2 : splitLines (dumpBlock m ++ (fmDelim ++ '\n' :: ensureNl body))
      = m.map dumpLine ++ splitLines (fmDelim ++ '\n' :: ensureNl body) :=
    splitLines_dumpBlock m _ (fun kv h => ⟨(hwf kv h).2.1, (hwf kv h).2.2⟩)
  have h1 : splitLines (matterStringify body m)
      = fmDelim :: (m.map dumpLine ++ (fmDelim :: splitLines (ensureNl body))) := by
    unfold matterStringify
    rw [if_neg hm, splitLines_append _ _ hnlf, h2, h3]
  have hdl : ∀ l ∈ m.map dumpLine, l ≠ fmDelim := by
    intro l hl
    obtain ⟨kv, hkv, hdup⟩ := List.mem_map.mp hl
    rw [← hdup]
    exact dumpLine_ne_delim kv
  have hsad : splitAtDelim (m.map dumpLine ++ fmDelim :: splitLines (ensureNl body))
      = some (m.map dumpLine, splitLines (ensureNl body)) := splitAtDelim_append _ _ hdl
  rw [matterParse_eq_of_splitLines _ fmDelim _ h1, if_pos rfl, hsad]
  show (parseBlock (m.map dumpLine), joinLines (splitLines (ensureNl body))) = (m, ensureNl body)
  rw [parseBlock_dumpBlock m hnd (fun kv h => (hwf kv h).1), joinLines_splitLines]

/-! ## Trim and trailing-newline lemmas -/

theorem trimChars_cons_ws (c : Char) (s : Chars) (hc : isWsChar c = true) :
    trimChars (c :: s) = trimChars s := by
  unfold trimChars
  rw [List.dropWhile_cons]
  simp [hc]

theorem trimChars_concat_nl (s : Chars) : trimChars (s ++ ['\n']) = trimChars s := by
  induction s with
  | nil => decide
  | cons c s' ih =>
    by_cases hc : isWsChar c = true
    · rw [List.cons_append, trimChars_cons_ws c _ hc, trimChars_cons_ws c _ hc, ih]
    · unfold trimChars
      rw [List.cons_append, List.dropWhile_cons, List.dropWhile_cons]
      simp only [hc, if_false, Bool.false_eq_true]
      have hrev : (c :: (s' ++ ['\n'])).reverse = '\n' :: (s'.reverse ++ [c]) := by
        simp
      have hrev2 : (c :: s').reverse = s'.reverse ++ [c] := by simp
      rw [hrev, hrev2, List.dropWhile_cons]
      have : isWsChar '\n' = true := by decide
      simp [this]

theorem trimChars_ensureNl (s : Chars) : trimChars (ensureNl s) = trimChars s := by
  unfold ensureNl
  by_cases h : s.getLast? = some '\n'
  · rw [if_pos h]
  · rw [if_neg h]
    exact trimChars_concat_nl s

theorem ensureNl_idem (s : Chars) : ensureNl (ensureNl s) = ensureNl s := by
  unfold ensureNl
  by_cases h : s.getLast? = some '\n'
  · rw [if_pos h, if_pos h]
  · rw [if_neg h]
    have h2 : (s ++ ['\n']).getLast? = some '\n' := List.getLast?_concat s
    rw [if_pos h2]

/-! ## Scanner unfolding lemmas -/

theorem scanLinksGo_irrel (f : Chars → Chars → Chars) :
    ∀ fuel fuel' s, s.length ≤ fuel → s.length ≤ fuel' →
      scanLinksGo f fuel s = scanLinksGo f fuel' s := by
  intro fuel
  induction fuel with
  | zero =>
    intro fuel' s hs _
    have hnil : s = [] := List.eq_nil_of_length_eq_zero (Nat.le_zero.mp hs)
    subst hnil
    cases fuel' <;> rfl
  | succ fuel ih =>
    intro fuel' s hs hs'
    cases s with
    | nil => cases fuel' <;> rfl
    | cons c rest =>
      cases fuel' with
      | zero => simp at hs'
      | succ fuel2 =>
        simp only [scanLinksGo]
        by_cases hc : c = '['
        · rw [if_pos hc, if_pos hc]
          cases htl : tryLink rest with
          | none =>
            have h1 : rest.length ≤ fuel := by simp at hs; omega
            have h2 : rest.length ≤ fuel2 := by simp at hs'; omega
            show '[' :: scanLinksGo f fuel rest = '[' :: scanLinksGo f fuel2 rest
            rw [ih fuel2 rest h1 h2]
          | some tur =>
            have hlen : tur.2.2.length < rest.length :=
              tryLink_decomp_length (by rw [htl])
            have h1 : tur.2.2.length ≤ fuel := by simp at hs; omega
            have h2 : tur.2.2.length ≤ fuel2 := by simp at hs'; omega
            show f tur.1 tur.2.1 ++ scanLinksGo f fuel tur.2.2
              = f tur.1 tur.2.1 ++ scanLinksGo f fuel2 tur.2.2
            rw [ih fuel2 tur.2.2 h1 h2]
        · rw [if_neg hc, if_neg hc]
          have h1 : rest.length ≤ fuel := by simp at hs; omega
          have h2 : rest.length ≤ fuel2 := by simp at hs'; omega
          rw [ih fuel2 rest h1 h2]

theorem scanLinks_nil (f : Chars → Chars → Chars) : scanLinks f [] = [] := rfl

theorem scanLinks_cons_ne (f : Chars → Chars → Chars) (c : Char) (rest : Chars)
    (hc : ¬c = '[') : scanLinks f (c :: rest) = c :: scanLinks f rest := by
  unfold scanLinks
  simp only [List.length_cons, scanLinksGo, if_neg hc]

theorem scanLinks_cons_none (f : Chars → Chars → Chars) (rest : Chars)
    (h : tryLink rest = none) : scanLinks f ('[' :: rest) = '[' :: scanLinks f rest := by
  unfold scanLinks
  simp only [List.length_cons, scanLinksGo, if_pos rfl, h]
  simp

theorem scanLinks_cons_some (f : Chars → Chars → Chars) (rest t u r : Chars)
    (h : tryLink rest = some (t, u, r)) :
    scanLinks f ('[' :: rest) = f t u ++ scanLinks f r := by
  have hlen : r.length < rest.length := tryLink_decomp_length h
  unfold scanLinks
  simp only [List.length_cons, scanLinksGo, if_pos rfl, h]
  rw [scanLinksGo_irrel f rest.length r.length r (le_of_lt hlen) (le_refl _)]
  simp

theorem linksOfGo_irrel :
    ∀ fuel fuel' s, s.length ≤ fuel → s.length ≤ fuel' →
      linksOfGo fuel s = linksOfGo fuel' s := by
  intro fuel
  induction fuel with
  | zero =>
    intro fuel' s hs _
    have hnil : s = [] := List.eq_nil_of_length_eq_zero (Nat.le_zero.mp hs)
    subst hnil
    cases fuel' <;> rfl
  | succ fuel ih =>
    intro fuel' s hs hs'
    cases s with
    | nil => cases fuel' <;> rfl
    | cons c rest =>
      cases fuel' with
      | zero => simp at hs'
      | succ fuel2 =>
        simp only [linksOfGo]
        by_cases hc : c = '['
        · rw [if_pos hc, if_pos hc]
          cases htl : tryLink rest with
          | none =>
            have h1 : rest.length ≤ fuel := by simp at hs; omega
            have h2 : rest.length ≤ fuel2 := by simp at hs'; omega
            show linksOfGo fuel rest = linksOfGo fuel2 rest
            rw [ih fuel2 rest h1 h2]
          | some tur =>
            have hlen : tur.2.2.length < rest.length :=
              tryLink_decomp_length (by rw [htl])
            have h1 : tur.2.2.length ≤ fuel := by simp at hs; omega
            have h2 : tur.2.2.length ≤ fuel2 := by simp at hs'; omega
            show (tur.1, tur.2.1) :: linksOfGo fuel tur.2.2
              = (tur.1, tur.2.1) :: linksOfGo fuel2 tur.2.2
            rw [ih fuel2 tur.2.2 h1 h2]
        · rw [if_neg hc, if_neg hc]
          have h1 : rest.length ≤ fuel := by simp at hs; omega
          have h2 : rest.length ≤ fuel2 := by simp at hs'; omega
          rw [ih fuel2 rest h1 h2]

theorem linksOf_cons_ne (c : Char) (rest : Chars) (hc : ¬c = '[') :
    linksOf (c :: rest) = linksOf rest := by
  unfold linksOf
  simp only [List.length_cons, linksOfGo, if_neg hc]

theorem linksOf_cons_none (rest : Chars) (h : tryLink rest = none) :
    linksOf ('[' :: rest) = linksOf rest := by
  unfold linksOf
  simp only [List.length_cons, linksOfGo, if_pos rfl, h]
  simp

theorem linksOf_cons_some (rest t u r : Chars) (h : tryLink rest = some (t, u, r)) :
    linksOf ('[' :: rest) = (t, u) :: linksOf r := by
  have hlen : r.length < rest.length := tryLink_decomp_length h
  unfold linksOf
  simp only [List.length_cons, linksOfGo, if_pos rfl, h]
  rw [linksOfGo_irrel rest.length r.length r (le_of_lt hlen) (le_refl _)]
  simp

/-! ## Stability of `updateFrontmatter` and frontmatter preservation -/

theorem updateFrontmatter_stable (text : Chars) (d : List (Chars × Chars))
    (hne : d ≠ []) (hnd : nodupKeys d)
    (hwf : ∀ kv ∈ d, containsSub ": ".toList kv.1 = false ∧ '\n' ∉ kv.1 ∧ '\n' ∉ kv.2) :
    updateFrontmatter (updateFrontmatter text d) d = updateFrontmatter text d := by
  have hmne : mergeFm (matterParse text).1 d ≠ [] := mergeFm_ne_nil _ hne
  have hmwf : ∀ kv ∈ mergeFm (matterParse text).1 d,
      containsSub ": ".toList kv.1 = false ∧ '\n' ∉ kv.1 ∧ '\n' ∉ kv.2 := by
    intro kv hkv
    rcases mem_mergeFm hkv with h | h
    · exact matterParse_wf text kv h
    · exact hwf kv h
  have hmnd : nodupKeys (mergeFm (matterParse text).1 d) :=
    mergeFm_nodup _ d (matterParse_nodup text)
  show updateFrontmatter
      (matterStringify (matterParse text).2 (mergeFm (matterParse text).1 d)) d = _
  unfold updateFrontmatter
  rw [matterParse_stringify _ _ hmne hmwf hmnd]
  show matterStringify (ensureNl (matterParse text).2)
      (mergeFm (mergeFm (matterParse text).1 d) d) = _
  rw [mergeFm_idem _ d hnd]
  unfold matterStringify
  rw [if_neg hmne, if_neg hmne, ensureNl_idem]

theorem updateFrontmatter_body (content : Chars) (d : List (Chars × Chars))
    (hne : d ≠ [])
    (hwf : ∀ kv ∈ d, '\n' ∉ kv.1 ∧ '\n' ∉ kv.2) :
    trimChars (matterParse (updateFrontmatter content d)).2
      = trimChars (matterParse content).2 := by
  have hmne : mergeFm (matterParse content).1 d ≠ [] := mergeFm_ne_nil _ hne
  have hmwf : ∀ kv ∈ mergeFm (matterParse content).1 d, '\n' ∉ kv.1 ∧ '\n' ∉ kv.2 := by
    intro kv hkv
    rcases mem_mergeFm hkv with h | h
    · exact ⟨(matterParse_wf content kv h).2.1, (matterParse_wf content kv h).2.2⟩
    · exact hwf kv h
  have hnlf : ('\n' : Char) ∉ fmDelim := by decide
  unfold updateFrontmatter matterStringify
  rw [if_neg hmne]
  have h3 : splitLines (fmDelim ++ '\n' :: ensureNl (matterParse content).2)
      = fmDelim :: splitLines (ensureNl (matterParse content).2) :=
    splitLines_append _ _ hnlf
  have h2 : splitLines (dumpBlock (mergeFm (matterParse content).1 d)
        ++ (fmDelim ++ '\n' :: ensureNl (matterParse content).2))
      = (mergeFm (matterParse content).1 d).map dumpLine
        ++ splitLines (fmDelim ++ '\n' :: ensureNl (matterParse content).2) :=
    splitLines_dumpBlock _ _ hmwf
  have h1 : splitLines (fmDelim ++ '\n' :: (dumpBlock (mergeFm (matterParse content).1 d)
        ++ (fmDelim ++ '\n' :: ensureNl (matterParse content).2)))
      = fmDelim :: ((mergeFm (matterParse content).1 d).map dumpLine
        ++ (fmDelim :: splitLines (ensureNl (matterParse content).2))) := by
    rw [splitLines_append _ _ hnlf, h2, h3]
  have hdl : ∀ l ∈ (mergeFm (matterParse content).1 d).map dumpLine, l ≠ fmDelim := by
    intro l hl
    obtain ⟨kv, hkv, hdup⟩ := List.mem_map.mp hl
    rw [← hdup]
    exact dumpLine_ne_delim kv
  have hsad : splitAtDelim ((mergeFm (matterParse content).1 d).map dumpLine
        ++ fmDelim :: splitLines (ensureNl (matterParse content).2))
      = some ((mergeFm (matterParse content).1 d).map dumpLine,
          splitLines (ensureNl (matterParse content).2)) := splitAtDelim_append _ _ hdl
  rw [matterParse_eq_of_splitLines _ fmDelim _ h1, if_pos rfl, hsad]
  show trimChars (joinLines (splitLines (ensureNl (matterParse content).2)))
      = trimChars (matterParse content).2
  rw [joinLines_splitLines, trimChars_ensureNl]

theorem fixReferences_keeps_frontmatter (content : Chars) (pageMap : List (Chars × Chars))
    (filePath : Chars) (spaceKeyMap : List (Chars × Chars)) (config : RPConfig)
    (hbody : (splitLines (scanLinks (linkReplacement pageMap spaceKeyMap config (dirname filePath))
        (parseFrontmatter content).2)).head? ≠ some fmDelim) :
    (parseFrontmatter (fixReferences content pageMap filePath spaceKeyMap config)).1
      = (parseFrontmatter content).1 := by
  have hparsefixed : matterParse (scanLinks
      (linkReplacement pageMap spaceKeyMap config (dirname filePath))
      (parseFrontmatter content).2) = ([], scanLinks
      (linkReplacement pageMap spaceKeyMap config (dirname filePath))
      (parseFrontmatter content).2) := matterParse_of_head_ne _ hbody
  have hfmnd : nodupKeys (parseFrontmatter content).1 := matterParse_nodup content
  show (parseFrontmatter (updateFrontmatter (scanLinks
      (linkReplacement pageMap spaceKeyMap config (dirname filePath))
      (parseFrontmatter content).2) (parseFrontmatter content).1)).1 = _
  unfold updateFrontmatter
  rw [hparsefixed]
  show (parseFrontmatter (matterStringify (scanLinks
      (linkReplacement pageMap spaceKeyMap config (dirname filePath))
      (parseFrontmatter content).2) (mergeFm [] (parseFrontmatter content).1))).1 = _
  rw [mergeFm_nil_left _ hfmnd]
  by_cases hfm : (parseFrontmatter content).1 = []
  · rw [hfm]
    unfold matterStringify
    rw [if_pos rfl]
    show (matterParse (ensureNl (scanLinks
        (linkReplacement pageMap spaceKeyMap config (dirname filePath))
        (parseFrontmatter content).2))).1 = ([] : List (Chars × Chars))
    have hhead : (splitLines (ensureNl (scanLinks
        (linkReplacement pageMap spaceKeyMap config (dirname filePath))
        (parseFrontmatter content).2))).head? ≠ some fmDelim := by
      rw [splitLines_head_ensureNl]
      exact hbody
    rw [matterParse_of_head_ne _ hhead]
  · have hwf : ∀ kv ∈ (parseFrontmatter content).1,
        containsSub ": ".toList kv.1 = false ∧ '\n' ∉ kv.1 ∧ '\n' ∉ kv.2 :=
      fun kv h => matterParse_wf content kv h
    show (matterParse (matterStringify (scanLinks
        (linkReplacement pageMap spaceKeyMap config (dirname filePath))
        (parseFrontmatter content).2) (parseFrontmatter content).1)).1 = _
    rw [matterParse_stringify _ _ hfm hwf hfmnd]

/-! ## Claims C7 and C8 -/

/-- C8 (amended): `updateFrontmatter` is idempotent in its data argument for
every markdown text and every nonempty well-formed frontmatter mapping `d`
(distinct keys, keys without `": "` or newlines, values without newlines):
`updateFrontmatter (updateFrontmatter text d) d = updateFrontmatter text d`. -/
theorem c8_updateFrontmatter_idempotent (text : Chars) (d : List (Chars × Chars))
    (hne : d ≠ []) (hnd : nodupKeys d)
    (hwf : ∀ kv ∈ d, containsSub ": ".toList kv.1 = false ∧ '\n' ∉ kv.1 ∧ '\n' ∉ kv.2) :
    updateFrontmatter (updateFrontmatter text d) d = updateFrontmatter text d :=
  updateFrontmatter_stable text d hne hnd hwf

/-- Witness for C8 at a concrete text and mapping. -/
theorem c8_updateFrontmatter_idempotent_witness :
    ([("a".toList, "1".toList)] : List (Chars × Chars)) ≠ [] ∧
    nodupKeys [("a".toList, "1".toList)] ∧
    (∀ kv ∈ [("a".toList, "1".toList)],
      containsSub ": ".toList kv.1 = false ∧ '\n' ∉ kv.1 ∧ '\n' ∉ kv.2) ∧
    updateFrontmatter (updateFrontmatter "hello".toList [("a".toList, "1".toList)])
        [("a".toList, "1".toList)]
      = updateFrontmatter "hello".toList [("a".toList, "1".toList)] :=
  ⟨by decide, by unfold nodupKeys; decide, by decide,
    c8_updateFrontmatter_idempotent "hello".toList [("a".toList, "1".toList)]
      (by decide) (by unfold nodupKeys; decide) (by decide)⟩

/-- C8 counterexample: with the empty mapping and a document whose body
itself starts with a frontmatter block, a second application appends one
more newline, so the claim's unrestricted idempotence is false. -/
theorem c8_updateFrontmatter_counterexample :
    updateFrontmatter (updateFrontmatter "---\n\n---\n---\nb: 2\n---".toList []) []
      ≠ updateFrontmatter "---\n\n---\n---\nb: 2\n---".toList [] := by decide

/-- C7 (amended): `fixReferences` re-attaches the parsed frontmatter
unchanged: whenever the rewritten body does not itself begin with a
frontmatter delimiter line `---`, parsing the rewritten output yields
exactly the input document's frontmatter mapping. -/
theorem c7_fixReferences_preserves_frontmatter (content : Chars)
    (pageMap : List (Chars × Chars)) (filePath : Chars)
    (spaceKeyMap : List (Chars × Chars)) (config : RPConfig)
    (hbody : (splitLines (scanLinks (linkReplacement pageMap spaceKeyMap config (dirname filePath))
        (parseFrontmatter content).2)).head? ≠ some fmDelim) :
    (parseFrontmatter (fixReferences content pageMap filePath spaceKeyMap config)).1
      = (parseFrontmatter content).1 :=
  fixReferences_keeps_frontmatter content pageMap filePath spaceKeyMap config hbody

/-- Witness for C7 at a concrete document with a resolvable link. -/
theorem c7_fixReferences_preserves_frontmatter_witness :
    ((splitLines (scanLinks (linkReplacement [("b".toList, "9".toList)] []
        ⟨"https://w".toList, "SP".toList⟩ (dirname "a.md".toList))
        (parseFrontmatter "---\nt: x\n---\nsee [a](./b.md)".toList).2)).head? ≠ some fmDelim) ∧
    (parseFrontmatter (fixReferences "---\nt: x\n---\nsee [a](./b.md)".toList
        [("b".toList, "9".toList)] "a.md".toList [] ⟨"https://w".toList, "SP".toList⟩)).1
      = (parseFrontmatter "---\nt: x\n---\nsee [a](./b.md)".toList).1 :=
  ⟨by decide,
    c7_fixReferences_preserves_frontmatter "---\nt: x\n---\nsee [a](./b.md)".toList
      [("b".toList, "9".toList)] "a.md".toList [] ⟨"https://w".toList, "SP".toList⟩ (by decide)⟩

/-- C7 counterexample: a document whose body itself begins with a
frontmatter block; the rewrite output's parsed frontmatter gains the body's
`b` key, so the claim's unrestricted form is false. -/
theorem c7_fixReferences_frontmatter_counterexample :
    (parseFrontmatter (fixReferences "---\na: 1\n---\n---\nb: 2\n---\nhello".toList []
        "a.md".toList [] ⟨"h".toList, "S".toList⟩)).1
      ≠ (parseFrontmatter "---\na: 1\n---\n---\nb: 2\n---\nhello".toList).1 := by decide


/-! ## Structure of the scanner on decomposed inputs -/

theorem takeWhile_app {p : Char → Bool} (a b : Chars) (h : ∀ c ∈ a, p c = true) :
    (a ++ b).takeWhile p = a ++ b.takeWhile p := by
  induction a with
  | nil => simp
  | cons x xs ih =>
    have hx : p x = true := h x (by simp)
    simp only [List.cons_append, List.takeWhile_cons, hx, if_true]
    rw [ih (fun c hc => h c (by simp [hc]))]

theorem dropWhile_app {p : Char → Bool} (a b : Chars) (h : ∀ c ∈ a, p c = true) :
    (a ++ b).dropWhile p = b.dropWhile p := by
  induction a with
  | nil => simp
  | cons x xs ih =>
    have hx : p x = true := h x (by simp)
    simp only [List.cons_append, List.dropWhile_cons, hx, if_true]
    exact ih (fun c hc => h c (by simp [hc]))

theorem tryLink_of_form (t u r : Chars) (ht : t ≠ []) (ht2 : ∀ c ∈ t, c ≠ ']')
    (hu : u ≠ []) (hu2 : ∀ c ∈ u, c ≠ ')') :
    tryLink (t ++ ']' :: '(' :: (u ++ ')' :: r)) = some (t, u, r) := by
  have h1 : (t ++ ']' :: '(' :: (u ++ ')' :: r)).takeWhile (· ≠ ']') = t := by
    rw [takeWhile_app t _ (by intro c hc; simpa using ht2 c hc)]
    simp [List.takeWhile_cons]
  have h2 : (t ++ ']' :: '(' :: (u ++ ')' :: r)).dropWhile (· ≠ ']')
      = ']' :: '(' :: (u ++ ')' :: r) := by
    rw [dropWhile_app t _ (by intro c hc; simpa using ht2 c hc)]
    simp [List.dropWhile_cons]
  have h3 : (u ++ ')' :: r).takeWhile (· ≠ ')') = u := by
    rw [takeWhile_app u _ (by intro c hc; simpa using hu2 c hc)]
    simp [List.takeWhile_cons]
  have h4 : (u ++ ')' :: r).dropWhile (· ≠ ')') = ')' :: r := by
    rw [dropWhile_app u _ (by intro c hc; simpa using hu2 c hc)]
    simp [List.dropWhile_cons]
  cases t with
  | nil => exact absurd rfl ht
  | cons t0 ts =>
    cases u with
    | nil => exact absurd rfl hu
    | cons u0 us =>
      unfold tryLink
      rw [h1, h2]
      show (match ((u0 :: us) ++ ')' :: r).takeWhile (· ≠ ')'),
          ((u0 :: us) ++ ')' :: r).dropWhile (· ≠ ')') with
        | c0 :: cs0, ')' :: d4 => some (t0 :: ts, c0 :: cs0, d4)
        | _, _ => none) = some (t0 :: ts, u0 :: us, r)
      rw [h3, h4]
      rfl

theorem tryLink_rb_head (x : Chars) : tryLink (']' :: x) = none := by
  have h1 : (']' :: x).takeWhile (· ≠ ']') = [] := by simp [List.takeWhile_cons]
  unfold tryLink
  split
  · rename_i a0 as0 b2 heq1 heq2
    rw [h1] at heq1
    exact absurd heq1 (by simp)
  · rfl

theorem dropWhile_head_false {p : Char → Bool} {l : Chars} {x : Char} {xs : Chars}
    (h : l.dropWhile p = x :: xs) : p x = false := by
  induction l with
  | nil => simp at h
  | cons c rest ih =>
    rw [List.dropWhile_cons] at h
    by_cases hc : p c = true
    · rw [if_pos hc] at h
      exact ih h
    · rw [if_neg hc] at h
      injection h with h1 h2
      rw [← h1]
      simpa using hc

theorem tryLink_none_of_no_rb (l : Chars) (h : ∀ c ∈ l, c ≠ ']') : tryLink l = none := by
  have hdw : l.dropWhile (· ≠ ']') = [] := by
    cases hd : l.dropWhile (· ≠ ']') with
    | nil => rfl
    | cons d ds =>
      have hdm : d ∈ l := (List.dropWhile_sublist _).subset (hd ▸ List.mem_cons_self d ds)
      have hfalse := dropWhile_head_false hd
      simp at hfalse
      exact absurd hfalse (h d hdm)
  unfold tryLink
  split
  · rename_i a0 as0 b2 heq1 heq2
    rw [hdw] at heq2
    exact absurd heq2 (by simp)
  · rfl

theorem tryLink_none_of_no_paren (l : Chars) (h : ∀ c ∈ l, c ≠ ')') : tryLink l = none := by
  unfold tryLink
  split
  · rename_i a0 as0 b2 heq1 heq2
    split
    · rename_i c0 cs0 d4 heq3 heq4
      have hm1 : ')' ∈ b2.dropWhile (· ≠ ')') := by
        rw [heq4]
        exact List.mem_cons_self _ _
      have hm2 : ')' ∈ b2 := (List.dropWhile_sublist _).subset hm1
      have hm3 : ')' ∈ l := (List.dropWhile_sublist _).subset (by
        rw [heq2]
        exact List.mem_cons_of_mem _ (List.mem_cons_of_mem _ hm2))
      exact absurd rfl (h ')' hm3)
    · rfl
  · rfl

theorem scanLinks_no_rb (f : Chars → Chars → Chars) (l : Chars) (h : ∀ c ∈ l, c ≠ ']') :
    scanLinks f l = l := by
  induction l with
  | nil => exact scanLinks_nil f
  | cons c rest ih =>
    have hrest : ∀ x ∈ rest, x ≠ ']' := fun x hx => h x (List.mem_cons_of_mem _ hx)
    by_cases hc : c = '['
    · subst hc
      rw [scanLinks_cons_none f rest (tryLink_none_of_no_rb rest hrest), ih hrest]
    · rw [scanLinks_cons_ne f c rest hc, ih hrest]

theorem scanLinks_no_paren (f : Chars → Chars → Chars) (l : Chars) (h : ∀ c ∈ l, c ≠ ')') :
    scanLinks f l = l := by
  induction l with
  | nil => exact scanLinks_nil f
  | cons c rest ih =>
    have hrest : ∀ x ∈ rest, x ≠ ')' := fun x hx => h x (List.mem_cons_of_mem _ hx)
    by_cases hc : c = '['
    · subst hc
      rw [scanLinks_cons_none f rest (tryLink_none_of_no_paren rest hrest), ih hrest]
    · rw [scanLinks_cons_ne f c rest hc, ih hrest]

/-- The parenthesised part of a candidate link fails to match: either the text
after the closing bracket does not open with a parenthesis, or the url part is
empty, or no closing parenthesis follows. -/
def abFails (l : Chars) : Prop :=
  l.head? ≠ some '(' ∨ l.tail.takeWhile (· ≠ ')') = [] ∨ l.tail.dropWhile (· ≠ ')') = []

theorem tryLink_fail_at (τ l : Chars) (hτ : ∀ c ∈ τ, c ≠ ']') (hl : abFails l) :
    tryLink (τ ++ ']' :: l) = none := by
  have htw : (τ ++ ']' :: l).takeWhile (· ≠ ']') = τ := by
    rw [takeWhile_app τ _ (by intro c hc; simpa using hτ c hc)]
    simp [List.takeWhile_cons]
  have hdw : (τ ++ ']' :: l).dropWhile (· ≠ ']') = ']' :: l := by
    rw [dropWhile_app τ _ (by intro c hc; simpa using hτ c hc)]
    simp [List.dropWhile_cons]
  unfold tryLink
  split
  · rename_i a0 as0 b2 heq1 heq2
    rw [hdw] at heq2
    injection heq2 with hx1 hx2
    -- hx2 : l = '(' :: b2
    split
    · rename_i c0 cs0 d4 heq3 heq4
      rcases hl with hl | hl | hl
      · rw [hx2] at hl
        simp at hl
      · rw [hx2] at hl
        simp only [List.tail_cons] at hl
        rw [hl] at heq3
        exact absurd heq3 (by simp)
      · rw [hx2] at hl
        simp only [List.tail_cons] at hl
        rw [hl] at heq4
        exact absurd heq4 (by simp)
    · rfl
  · rfl

theorem abFails_of_tryLink_none (τ l : Chars) (hτne : τ ≠ []) (hτ : ∀ c ∈ τ, c ≠ ']')
    (h : tryLink (τ ++ ']' :: l) = none) : abFails l := by
  by_cases hhd : l.head? = some '('
  · cases l with
    | nil => simp at hhd
    | cons c r2 =>
      simp at hhd
      subst hhd
      by_cases h1 : r2.takeWhile (· ≠ ')') = []
      · exact Or.inr (Or.inl h1)
      · by_cases h2 : r2.dropWhile (· ≠ ')') = []
        · exact Or.inr (Or.inr h2)
        · exfalso
          -- both nonempty: tryLink would have succeeded
          obtain ⟨u0, us, hu⟩ : ∃ u0 us, r2.takeWhile (· ≠ ')') = u0 :: us := by
            cases hx : r2.takeWhile (· ≠ ')') with
            | nil => exact absurd hx h1
            | cons a b => exact ⟨a, b, rfl⟩
          obtain ⟨d0, ds, hd⟩ : ∃ d0 ds, r2.dropWhile (· ≠ ')') = d0 :: ds := by
            cases hx : r2.dropWhile (· ≠ ')') with
            | nil => exact absurd hx h2
            | cons a b => exact ⟨a, b, rfl⟩
          have hd0 : d0 = ')' := by
            have := dropWhile_head_false hd
            simpa using this
          subst hd0
          have hurl : r2 = (u0 :: us) ++ ')' :: ds := by
            conv_lhs => rw [← List.takeWhile_append_dropWhile (p := (· ≠ ')')) (l := r2)]
            rw [hu, hd]
          have huwf : ∀ c ∈ u0 :: us, c ≠ ')' := by
            intro c hc
            have : c ∈ r2.takeWhile (· ≠ ')') := hu ▸ hc
            simpa using List.mem_takeWhile_imp this
          have := tryLink_of_form τ (u0 :: us) ds hτne hτ (by simp) huwf
          rw [← hurl] at this
          rw [h] at this
          exact absurd this (by simp)
  · exact Or.inl hhd

theorem scanLinks_fail_tail (f : Chars → Chars → Chars) (τ l : Chars)
    (hτ : ∀ c ∈ τ, c ≠ ']') (hl : abFails l) :
    scanLinks f (τ ++ ']' :: l) = τ ++ ']' :: scanLinks f l := by
  induction τ with
  | nil =>
    simp only [List.nil_append]
    exact scanLinks_cons_ne f ']' l (by decide)
  | cons a τ2 ih =>
    have hτ2 : ∀ c ∈ τ2, c ≠ ']' := fun c hc => hτ c (List.mem_cons_of_mem _ hc)
    by_cases ha : a = '['
    · subst ha
      rw [List.cons_append, scanLinks_cons_none f _ (tryLink_fail_at τ2 l hτ2 hl), ih hτ2]
      simp
    · rw [List.cons_append, scanLinks_cons_ne f a _ ha, ih hτ2]
      simp

theorem all_of_dropWhile_nil {p : Char → Bool} {l : Chars} (h : l.dropWhile p = []) :
    ∀ c ∈ l, p c = true := by
  induction l with
  | nil => intro c hc; simp at hc
  | cons x xs ih =>
    rw [List.dropWhile_cons] at h
    by_cases hx : p x = true
    · rw [if_pos hx] at h
      intro c hc
      rcases List.mem_cons.mp hc with hc | hc
      · rw [hc]; exact hx
      · exact ih h c hc
    · rw [if_neg hx] at h
      simp at h

/-- Fixed-point property of a replacement function: on every well-formed
text/url pair it produces a full link whose url part is again well-formed and
is itself left unchanged by the replacement function. -/
def goodF (f : Chars → Chars → Chars) : Prop :=
  ∀ t u, t ≠ [] → (∀ c ∈ t, c ≠ ']') → u ≠ [] → (∀ c ∈ u, c ≠ ')') →
    ∃ u2, f t u = '[' :: (t ++ ']' :: '(' :: (u2 ++ [')'])) ∧ u2 ≠ [] ∧
      (∀ c ∈ u2, c ≠ ')') ∧ f t u2 = '[' :: (t ++ ']' :: '(' :: (u2 ++ [')']))

theorem scanLinks_head_ne_paren (f : Chars → Chars → Chars) (hgf : goodF f) (l : Chars)
    (h : l.head? ≠ some '(') : (scanLinks f l).head? ≠ some '(' := by
  cases l with
  | nil => simp [scanLinks_nil]
  | cons c rest =>
    by_cases hc : c = '['
    · subst hc
      cases htl : tryLink rest with
      | none =>
        rw [scanLinks_cons_none f rest htl]
        simp
      | some tur =>
        obtain ⟨t, u, r⟩ := tur
        obtain ⟨hrest, htne, htnb, hune, hunp⟩ := tryLink_decomp htl
        obtain ⟨u2, hfu, hu2ne, hu2np, hfix⟩ := hgf t u htne htnb hune hunp
        rw [scanLinks_cons_some f rest t u r htl, hfu]
        simp
    · rw [scanLinks_cons_ne f c rest hc]
      simpa using (by simpa using h)

theorem abFails_scan (f : Chars → Chars → Chars) (hgf : goodF f) (l : Chars)
    (hl : abFails l) : abFails (scanLinks f l) := by
  cases l with
  | nil => exact Or.inl (by simp [scanLinks_nil])
  | cons c r2 =>
    by_cases hc : c = '('
    · subst hc
      rcases hl with hl | hl | hl
      · simp at hl
      · simp only [List.tail_cons] at hl
        rw [scanLinks_cons_ne f '(' r2 (by decide)]
        cases r2 with
        | nil => exact Or.inr (Or.inl (by simp [scanLinks_nil]))
        | cons d r3 =>
          have hd : d = ')' := by
            rw [List.takeWhile_cons] at hl
            by_cases hdp : (d ≠ ')')
            · rw [if_pos (by simpa using hdp)] at hl
              simp at hl
            · simpa using hdp
          subst hd
          rw [scanLinks_cons_ne f ')' r3 (by decide)]
          exact Or.inr (Or.inl (by simp [List.takeWhile_cons]))
      · simp only [List.tail_cons] at hl
        have hall : ∀ x ∈ r2, x ≠ ')' := by
          intro x hx
          simpa using all_of_dropWhile_nil hl x hx
        rw [scanLinks_cons_ne f '(' r2 (by decide), scanLinks_no_paren f r2 hall]
        exact Or.inr (Or.inr hl)
    · exact Or.inl (scanLinks_head_ne_paren f hgf (c :: r2) (by simpa using hc))

theorem tryLink_scan_none (f : Chars → Chars → Chars) (hgf : goodF f) (rest : Chars)
    (h : tryLink rest = none) : tryLink (scanLinks f rest) = none := by
  cases hdlt : rest.dropWhile (· ≠ ']') with
  | nil =>
    have hnr : ∀ c ∈ rest, c ≠ ']' := by
      intro c hc
      simpa using all_of_dropWhile_nil hdlt c hc
    rw [scanLinks_no_rb f rest hnr]
    exact h
  | cons d dlt2 =>
    have hd : d = ']' := by
      have := dropWhile_head_false hdlt
      simpa using this
    subst hd
    have hrest : rest = rest.takeWhile (· ≠ ']') ++ ']' :: dlt2 := by
      conv_lhs => rw [← List.takeWhile_append_dropWhile (p := (· ≠ ']')) (l := rest)]
      rw [hdlt]
    have hτ : ∀ c ∈ rest.takeWhile (· ≠ ']'), c ≠ ']' := by
      intro c hc
      simpa using List.mem_takeWhile_imp hc
    cases hτn : rest.takeWhile (· ≠ ']') with
    | nil =>
      rw [hτn] at hrest
      simp only [List.nil_append] at hrest
      rw [hrest, scanLinks_cons_ne f ']' dlt2 (by decide)]
      exact tryLink_rb_head _
    | cons t0 ts =>
      rw [hτn] at hrest hτ
      have habf : abFails dlt2 := by
        apply abFails_of_tryLink_none (t0 :: ts) dlt2 (by simp) hτ
        rw [← hrest]
        exact h
      rw [hrest, scanLinks_fail_tail f (t0 :: ts) dlt2 hτ habf]
      exact tryLink_fail_at (t0 :: ts) (scanLinks f dlt2) hτ (abFails_scan f hgf dlt2 habf)

theorem scanLinks_idem (f : Chars → Chars → Chars) (hgf : goodF f) (s : Chars) :
    scanLinks f (scanLinks f s) = scanLinks f s := by
  have main : ∀ n s2, List.length s2 ≤ n →
      scanLinks f (scanLinks f s2) = scanLinks f s2 := by
    intro n
    induction n with
    | zero =>
      intro s2 hs
      have : s2 = [] := List.length_eq_zero.mp (Nat.le_zero.mp hs)
      subst this
      simp [scanLinks_nil]
    | succ n ih =>
      intro s2 hs
      cases s2 with
      | nil => simp [scanLinks_nil]
      | cons c rest =>
        have hrlen : rest.length ≤ n := Nat.le_of_succ_le_succ (by simpa using hs)
        by_cases hc : c = '['
        · subst hc
          cases htl : tryLink rest with
          | none =>
            rw [scanLinks_cons_none f rest htl,
              scanLinks_cons_none f _ (tryLink_scan_none f hgf rest htl),
              ih rest hrlen]
          | some tur =>
            obtain ⟨t, u, r⟩ := tur
            obtain ⟨hrest, htne, htnb, hune, hunp⟩ := tryLink_decomp htl
            obtain ⟨u2, hfu, hu2ne, hu2np, hfix⟩ := hgf t u htne htnb hune hunp
            have hrlen2 : r.length ≤ n :=
              Nat.le_of_lt (Nat.lt_of_lt_of_le (tryLink_decomp_length htl) hrlen)
            rw [scanLinks_cons_some f rest t u r htl, hfu]
            have hshape : ('[' :: (t ++ ']' :: '(' :: (u2 ++ [')']))) ++ scanLinks f r
                = '[' :: (t ++ ']' :: '(' :: (u2 ++ ')' :: scanLinks f r)) := by
              simp
            rw [hshape,
              scanLinks_cons_some f _ t u2 (scanLinks f r)
                (tryLink_of_form t u2 (scanLinks f r) htne htnb hu2ne hu2np),
              hfix, ih r hrlen2]
            simp
        · rw [scanLinks_cons_ne f c rest hc, scanLinks_cons_ne f c _ hc, ih rest hrlen]
  exact main s.length s (le_refl _)

/-! ## `linkReplacement` satisfies the fixed-point property -/

theorem alGet_mem {β : Type} (m : List (Chars × β)) (k : Chars) (v : β)
    (h : alGet m k = some v) : (k, v) ∈ m := by
  induction m with
  | nil => simp [alGet] at h
  | cons kv rest ih =>
    obtain ⟨k2, v2⟩ := kv
    unfold alGet at h
    by_cases hk : k2 = k
    · rw [if_pos hk] at h
      injection h with h2
      subst hk
      subst h2
      exact List.mem_cons_self _ _
    · rw [if_neg hk] at h
      exact List.mem_cons_of_mem _ (ih h)

theorem findFirstHit_mem (pageMap : List (Chars × Chars)) (cands : List Chars) (v : Chars)
    (h : findFirstHit pageMap cands = some v) : ∃ k, (k, v) ∈ pageMap := by
  induction cands with
  | nil => simp [findFirstHit] at h
  | cons p ps ih =>
    unfold findFirstHit at h
    cases hget : alGet pageMap p with
    | some pid =>
      rw [hget] at h
      injection h with h2
      subst h2
      exact ⟨p, alGet_mem pageMap p _ hget⟩
    | none =>
      rw [hget] at h
      exact ih h

theorem confluenceUrlFor_shape (cfg : RPConfig) (skm : List (Chars × Chars)) (pid : Chars) :
    ∃ sk, confluenceUrlFor cfg skm pid
        = (cfg.confluenceBaseUrl ++ "/wiki/spaces/".toList) ++
            (sk ++ "/pages/".toList ++ pid) ∧
      (sk = cfg.confluenceSpaceKey ∨ ∃ k, (k, sk) ∈ skm) := by
  unfold confluenceUrlFor
  cases hget : alGet skm pid with
  | none =>
    refine ⟨cfg.confluenceSpaceKey, by simp, Or.inl rfl⟩
  | some sk0 =>
    by_cases hske : sk0 = []
    · refine ⟨cfg.confluenceSpaceKey, by simp [hske], Or.inl rfl⟩
    · refine ⟨sk0, by simp [hske], Or.inr ⟨pid, alGet_mem skm pid sk0 hget⟩⟩

theorem isRemoteUrl_confluenceUrlFor (cfg : RPConfig) (skm : List (Chars × Chars))
    (pid : Chars) : isRemoteUrl (confluenceUrlFor cfg skm pid) = true := by
  obtain ⟨sk, hshape, _⟩ := confluenceUrlFor_shape cfg skm pid
  unfold isRemoteUrl
  rw [hshape, containsSub_of_append "/wiki/spaces/".toList cfg.confluenceBaseUrl
    (sk ++ "/pages/".toList ++ pid), Bool.true_or]

theorem goodF_linkReplacement (pageMap skm : List (Chars × Chars)) (cfg : RPConfig)
    (baseDir : Chars)
    (hb : ∀ c ∈ cfg.confluenceBaseUrl, c ≠ ')')
    (hsk : ∀ c ∈ cfg.confluenceSpaceKey, c ≠ ')')
    (hskm : ∀ kv ∈ skm, ∀ c ∈ kv.2, c ≠ ')')
    (hpm : ∀ kv ∈ pageMap, ∀ c ∈ kv.2, c ≠ ')') :
    goodF (linkReplacement pageMap skm cfg baseDir) := by
  intro t u htne htnb hune hunp
  by_cases hrem : isRemoteUrl u = true
  · refine ⟨u, ?_, hune, hunp, ?_⟩
    · unfold linkReplacement
      rw [if_pos hrem]
      simp
    · unfold linkReplacement
      rw [if_pos hrem]
      simp
  · cases hres : resolvePageId pageMap baseDir u with
    | none =>
      refine ⟨u, ?_, hune, hunp, ?_⟩
      · unfold linkReplacement
        rw [if_neg hrem, hres]
        simp
      · unfold linkReplacement
        rw [if_neg hrem, hres]
        simp
    | some pid =>
      have hpid : ∀ c ∈ pid, c ≠ ')' := by
        obtain ⟨k, hk⟩ := findFirstHit_mem pageMap _ pid hres
        exact hpm (k, pid) hk
      obtain ⟨sk, hshape, hsksrc⟩ := confluenceUrlFor_shape cfg skm pid
      have hskc : ∀ c ∈ sk, c ≠ ')' := by
        rcases hsksrc with h | ⟨k, hk⟩
        · rw [h]; exact hsk
        · exact hskm (k, sk) hk
      have hnp : ∀ c ∈ confluenceUrlFor cfg skm pid, c ≠ ')' := by
        intro c hc
        rw [hshape] at hc
        simp only [List.mem_append] at hc
        rcases hc with (hc | hc) | (hc | hc) | hc
        · exact hb c hc
        · intro heq; subst heq; exact absurd hc (by decide)
        · exact hskc c hc
        · intro heq; subst heq; exact absurd hc (by decide)
        · exact hpid c hc
      have hne : confluenceUrlFor cfg skm pid ≠ [] := by
        rw [hshape]
        simp
      refine ⟨confluenceUrlFor cfg skm pid, ?_, hne, hnp, ?_⟩
      · unfold linkReplacement
        rw [if_neg hrem, hres]
        simp
      · unfold linkReplacement
        rw [if_pos (isRemoteUrl_confluenceUrlFor cfg skm pid)]
        simp

/-- C9: link rewriting is stable once resolved.  For a document body whose
every inline link is either remote or resolves in the identifier map, and for
well-formed configuration data (no `')'` inside the base URL, the space keys or
the page identifiers, which already holds for all data the extraction step can
produce), applying the link-rewriting pass of `fixReferences` a second time
leaves the first pass's output byte-identical: every link target is unchanged. -/
theorem c9_link_rewrite_stable (content : Chars) (pageMap spaceKeyMap : List (Chars × Chars))
    (filePath : Chars) (config : RPConfig)
    (hresolved : ∀ tu ∈ linksOf (parseFrontmatter content).2,
      isRemoteUrl tu.2 = true ∨ (resolvePageId pageMap (dirname filePath) tu.2).isSome = true)
    (hb : ∀ c ∈ config.confluenceBaseUrl, c ≠ ')')
    (hsk : ∀ c ∈ config.confluenceSpaceKey, c ≠ ')')
    (hskm : ∀ kv ∈ spaceKeyMap, ∀ c ∈ kv.2, c ≠ ')')
    (hpm : ∀ kv ∈ pageMap, ∀ c ∈ kv.2, c ≠ ')') :
    scanLinks (linkReplacement pageMap spaceKeyMap config (dirname filePath))
        (scanLinks (linkReplacement pageMap spaceKeyMap config (dirname filePath))
          (parseFrontmatter content).2)
      = scanLinks (linkReplacement pageMap spaceKeyMap config (dirname filePath))
          (parseFrontmatter content).2 :=
  scanLinks_idem _
    (goodF_linkReplacement pageMap spaceKeyMap config (dirname filePath) hb hsk hskm hpm)
    (parseFrontmatter content).2

/-- Witness for C9 at a concrete resolvable document. -/
theorem c9_link_rewrite_stable_witness :
    ((∀ tu ∈ linksOf (parseFrontmatter "see [a](./b.md)".toList).2,
        isRemoteUrl tu.2 = true ∨
          (resolvePageId [("b".toList, "9".toList)] (dirname "f.md".toList) tu.2).isSome = true) ∧
      (∀ c ∈ ("https://x.net".toList : Chars), c ≠ ')') ∧
      (∀ c ∈ ("S".toList : Chars), c ≠ ')') ∧
      (∀ kv ∈ ([] : List (Chars × Chars)), ∀ c ∈ kv.2, c ≠ ')') ∧
      (∀ kv ∈ [("b".toList, "9".toList)], ∀ c ∈ kv.2, c ≠ ')')) ∧
    scanLinks
        (linkReplacement [("b".toList, "9".toList)] []
          ⟨"https://x.net".toList, "S".toList⟩ (dirname "f.md".toList))
        (scanLinks
          (linkReplacement [("b".toList, "9".toList)] []
            ⟨"https://x.net".toList, "S".toList⟩ (dirname "f.md".toList))
          (parseFrontmatter "see [a](./b.md)".toList).2)
      = scanLinks
          (linkReplacement [("b".toList, "9".toList)] []
            ⟨"https://x.net".toList, "S".toList⟩ (dirname "f.md".toList))
          (parseFrontmatter "see [a](./b.md)".toList).2 :=
  ⟨⟨by decide, by decide, by decide, by decide, by decide⟩,
    c9_link_rewrite_stable "see [a](./b.md)".toList [("b".toList, "9".toList)] []
      "f.md".toList ⟨"https://x.net".toList, "S".toList⟩
      (by decide) (by decide) (by decide) (by decide) (by decide)⟩

/-! ## Exact matching of well-formed SUCCESS lines -/

theorem prefix_of_append_of_le (p : Chars) :
    ∀ t w rest : Chars, p ++ t = w ++ rest → p.length ≤ w.length → ∃ t2, w = p ++ t2 := by
  induction p with
  | nil => intro t w rest _ _; exact ⟨w, rfl⟩
  | cons a p2 ih =>
    intro t w rest heq hlen
    cases w with
    | nil => simp at hlen
    | cons b w2 =>
      simp only [List.cons_append] at heq
      injection heq with h1 h2
      obtain ⟨t2, ht2⟩ := ih t w2 rest h2 (by simpa using hlen)
      exact ⟨t2, by rw [h1, ht2]; rfl⟩

theorem breakOn_no_early (pat : Chars) (hp : pat ≠ []) (v : Chars) :
    ∀ k : Chars, containsSub pat (k ++ pat.dropLast) = false →
      breakOn pat (k ++ pat ++ v) = some (k, v) := by
  intro k
  induction k with
  | nil =>
    intro _
    simpa using breakOn_self_append pat v
  | cons c k2 ih =>
    intro hcl
    have hcl2 : containsSub pat (k2 ++ pat.dropLast) = false := by
      by_cases h2 : containsSub pat (k2 ++ pat.dropLast) = true
      · rw [show (c :: k2) ++ pat.dropLast = c :: (k2 ++ pat.dropLast) from rfl] at hcl
        rw [containsSub_cons_of _ c _ h2] at hcl
        exact absurd hcl (by simp)
      · simpa using h2
    have hns : ¬ startsWithL pat (c :: (k2 ++ pat ++ v)) = true := by
      intro h
      obtain ⟨t, ht⟩ := startsWithL_eq_append pat _ h
      have hlast : pat.dropLast ++ [pat.getLast hp] = pat := List.dropLast_append_getLast hp
      have heq : pat ++ t = (c :: (k2 ++ pat.dropLast)) ++ ([pat.getLast hp] ++ v) := by
        rw [← ht]
        show c :: (k2 ++ pat ++ v) = c :: ((k2 ++ pat.dropLast) ++ ([pat.getLast hp] ++ v))
        congr 1
        rw [List.append_assoc k2 pat.dropLast, ← List.append_assoc pat.dropLast, hlast,
          List.append_assoc]
      have hlen : pat.length ≤ (c :: (k2 ++ pat.dropLast)).length := by
        have : pat.dropLast.length = pat.length - 1 := List.length_dropLast pat
        have hplen : 1 ≤ pat.length := by
          cases pat with
          | nil => exact absurd rfl hp
          | cons x xs => simp
        simp only [List.length_cons, List.length_append, this]
        omega
      obtain ⟨t2, ht2⟩ := prefix_of_append_of_le pat _ _ _ heq hlen
      have : containsSub pat (c :: (k2 ++ pat.dropLast)) = true := by
        rw [ht2]
        unfold containsSub
        rw [breakOn_self_append]
        rfl
      rw [show (c :: k2) ++ pat.dropLast = c :: (k2 ++ pat.dropLast) from rfl] at hcl
      rw [this] at hcl
      exact absurd hcl (by simp)
    show breakOn pat ((c :: k2) ++ pat ++ v) = some (c :: k2, v)
    rw [show (c :: k2) ++ pat ++ v = c :: (k2 ++ pat ++ v) by simp]
    rw [breakOn, if_neg hns, ih hcl2]

theorem breakOn1_of_breakOn (pat : Chars) (c : Char) (rest pre post : Chars)
    (h : breakOn pat rest = some (pre, post)) :
    breakOn1 pat (c :: rest) = some (c :: pre, post) := by
  simp only [breakOn1, h]

theorem matchSuccessLine_steps (line pre1 r1 p r2 pre2 r3 sp r4 ds : Chars)
    (e1 : breakOn "SUCCESS: ".toList line = some (pre1, r1))
    (e2 : breakOn1 " Content: ".toList r1 = some (p, r2))
    (e3 : breakOn1 successUrlLit r2 = some (pre2, r3))
    (e4 : r3.takeWhile (· ≠ '/') = sp)
    (e5 : r3.dropWhile (· ≠ '/') = r4)
    (hsp : ¬sp = [])
    (e6 : startsWithL "/pages/".toList r4 = true)
    (e7 : (r4.drop 7).takeWhile (fun c => c.isDigit) = ds)
    (hds : ¬ds = []) :
    matchSuccessLine line = some (p, sp, ds) := by
  unfold matchSuccessLine
  simp only [e1, e2, e3, e4, e5, e6, e7]
  rw [if_neg hsp]
  simp only [if_true]
  rw [if_neg hds]

theorem matchSuccessLine_of_form (p1 m1 s1 d1 tail : Chars) (p0 m0 s0 d0 : Char)
    (hp : containsSub " Content: ".toList (p1 ++ " Content: ".toList.dropLast) = false)
    (hm : containsSub successUrlLit (m1 ++ successUrlLit.dropLast) = false)
    (hsp : ∀ c ∈ s0 :: s1, c ≠ '/')
    (hds : ∀ c ∈ d0 :: d1, c.isDigit = true)
    (htl : tail.takeWhile (fun c => c.isDigit) = []) :
    matchSuccessLine ("SUCCESS: ".toList ++ (p0 :: p1) ++ " Content: ".toList ++ (m0 :: m1)
        ++ successUrlLit ++ (s0 :: s1) ++ "/pages/".toList ++ (d0 :: d1) ++ tail)
      = some (p0 :: p1, s0 :: s1, d0 :: d1) := by
  have e1 : breakOn "SUCCESS: ".toList
      ("SUCCESS: ".toList ++ (p0 :: p1) ++ " Content: ".toList ++ (m0 :: m1)
        ++ successUrlLit ++ (s0 :: s1) ++ "/pages/".toList ++ (d0 :: d1) ++ tail)
      = some ([], (p0 :: p1) ++ " Content: ".toList ++ (m0 :: m1)
        ++ successUrlLit ++ (s0 :: s1) ++ "/pages/".toList ++ (d0 :: d1) ++ tail) := by
    have := breakOn_self_append "SUCCESS: ".toList
      ((p0 :: p1) ++ " Content: ".toList ++ (m0 :: m1)
        ++ successUrlLit ++ (s0 :: s1) ++ "/pages/".toList ++ (d0 :: d1) ++ tail)
    simpa [List.append_assoc] using this
  have e2 : breakOn1 " Content: ".toList
      ((p0 :: p1) ++ " Content: ".toList ++ (m0 :: m1)
        ++ successUrlLit ++ (s0 :: s1) ++ "/pages/".toList ++ (d0 :: d1) ++ tail)
      = some (p0 :: p1, (m0 :: m1)
        ++ successUrlLit ++ (s0 :: s1) ++ "/pages/".toList ++ (d0 :: d1) ++ tail) := by
    have hb := breakOn_no_early " Content: ".toList (by decide)
      ((m0 :: m1) ++ successUrlLit ++ (s0 :: s1) ++ "/pages/".toList ++ (d0 :: d1) ++ tail)
      p1 hp
    have hb1 := breakOn1_of_breakOn " Content: ".toList p0
      (p1 ++ " Content: ".toList
        ++ ((m0 :: m1) ++ successUrlLit ++ (s0 :: s1) ++ "/pages/".toList ++ (d0 :: d1) ++ tail))
      p1
      ((m0 :: m1) ++ successUrlLit ++ (s0 :: s1) ++ "/pages/".toList ++ (d0 :: d1) ++ tail)
      hb
    simpa [List.append_assoc] using hb1
  have e3 : breakOn1 successUrlLit
      ((m0 :: m1) ++ successUrlLit ++ (s0 :: s1) ++ "/pages/".toList ++ (d0 :: d1) ++ tail)
      = some (m0 :: m1, (s0 :: s1) ++ "/pages/".toList ++ (d0 :: d1) ++ tail) := by
    have hb := breakOn_no_early successUrlLit (by decide)
      ((s0 :: s1) ++ "/pages/".toList ++ (d0 :: d1) ++ tail) m1 hm
    have hb1 := breakOn1_of_breakOn successUrlLit m0
      (m1 ++ successUrlLit ++ ((s0 :: s1) ++ "/pages/".toList ++ (d0 :: d1) ++ tail))
      m1 ((s0 :: s1) ++ "/pages/".toList ++ (d0 :: d1) ++ tail) hb
    simpa [List.append_assoc] using hb1
  have e4 : ((s0 :: s1) ++ "/pages/".toList ++ (d0 :: d1) ++ tail).takeWhile (· ≠ '/')
      = s0 :: s1 := by
    rw [List.append_assoc, List.append_assoc,
      takeWhile_app (s0 :: s1) _ (by intro c hc; simpa using hsp c hc)]
    simp [List.takeWhile_cons]
  have e5 : ((s0 :: s1) ++ "/pages/".toList ++ (d0 :: d1) ++ tail).dropWhile (· ≠ '/')
      = "/pages/".toList ++ ((d0 :: d1) ++ tail) := by
    rw [List.append_assoc, List.append_assoc,
      dropWhile_app (s0 :: s1) _ (by intro c hc; simpa using hsp c hc)]
    simp [List.dropWhile_cons]
  have e6 : startsWithL "/pages/".toList ("/pages/".toList ++ ((d0 :: d1) ++ tail)) = true :=
    startsWithL_self_append _ _
  have e7 : (("/pages/".toList ++ ((d0 :: d1) ++ tail)).drop 7).takeWhile
      (fun c => c.isDigit) = d0 :: d1 := by
    rw [show (7 : Nat) = "/pages/".toList.length from rfl, List.drop_left,
      takeWhile_app (d0 :: d1) tail (by intro c hc; simpa using hds c hc), htl]
    simp
  exact matchSuccessLine_steps _ [] _ (p0 :: p1) _ (m0 :: m1) _ (s0 :: s1) _ (d0 :: d1)
    e1 e2 e3 e4 e5 (by simp) e6 e7 (by simp)

theorem splitLines_no_nl (s : Chars) (h : '\n' ∉ s) : splitLines s = [s] := by
  induction s with
  | nil => rfl
  | cons c rest ih =>
    have hc : ¬c = '\n' := fun hcc => h (hcc ▸ List.mem_cons_self c rest)
    have hrest : '\n' ∉ rest := fun hn => h (List.mem_cons_of_mem c hn)
    rw [splitLines_cons_ne c rest hc, ih hrest]
    simp

theorem alGet_isSome_alSet {β : Type} (m : List (Chars × β)) (k k' : Chars) (v : β)
    (h : (alGet m k').isSome = true) : (alGet (alSet m k v) k').isSome = true := by
  by_cases hk : k' = k
  · subst hk
    rw [alGet_alSet_same]
    rfl
  · rw [alGet_alSet_other m k k' v hk]
    exact h

theorem extract_step_preserves (k : Chars)
    (lines : List Chars) :
    ∀ maps : List (Chars × Chars) × List (Chars × Chars), (alGet maps.1 k).isSome = true →
    (alGet (lines.foldl
      (fun maps line =>
        match matchSuccessLine line with
        | some psd =>
          (alSet maps.1 (normalizePath (stripMd psd.1)) psd.2.2, alSet maps.2 psd.2.2 psd.2.1)
        | none => maps) maps).1 k).isSome = true := by
  induction lines with
  | nil => intro maps h; exact h
  | cons l ls ih =>
    intro maps h
    simp only [List.foldl_cons]
    cases hml : matchSuccessLine l with
    | none => exact ih maps h
    | some psd => exact ih _ (alGet_isSome_alSet _ _ _ _ h)

theorem extractPageIds_registers (commandOutput line p sp ds : Chars)
    (hline : line ∈ splitLines commandOutput)
    (hmatch : matchSuccessLine line = some (p, sp, ds)) :
    (alGet (extractPageIds commandOutput).1 (normalizePath (stripMd p))).isSome = true := by
  unfold extractPageIds
  have main : ∀ (lines : List Chars) (init : List (Chars × Chars) × List (Chars × Chars)),
      line ∈ lines →
      (alGet (lines.foldl
        (fun maps l2 =>
          match matchSuccessLine l2 with
          | some psd =>
            (alSet maps.1 (normalizePath (stripMd psd.1)) psd.2.2, alSet maps.2 psd.2.2 psd.2.1)
          | none => maps) init).1 (normalizePath (stripMd p))).isSome = true := by
    intro lines
    induction lines with
    | nil => intro init h; simp at h
    | cons l ls ih =>
      intro init h
      rcases List.mem_cons.mp h with h | h
      · subst h
        simp only [List.foldl_cons, hmatch]
        exact extract_step_preserves _ ls _ (by rw [alGet_alSet_same]; rfl)
      · simp only [List.foldl_cons]
        cases hml : matchSuccessLine l with
        | none => exact ih _ h
        | some psd => exact ih _ h
  exact main (splitLines commandOutput) ([], []) hline

/-- C4 (corrected): the extraction regex hard-codes the base URL
`https://coreljira.atlassian.net` (inside `successUrlLit`), so only SUCCESS
lines carrying that exact base are matched — not lines with an arbitrary
`<base>`.  For every line of the hard-coded-base form, the match returns the
path, space key and numeric id, a single-line output registers the path with
its extension stripped mapped to the id and the space key under the id, and no
matched line of any output is missed. -/
theorem c4_success_line_extraction
    (p1 m1 s1 d1 tail : Chars) (p0 m0 s0 d0 : Char)
    (hp : containsSub " Content: ".toList (p1 ++ " Content: ".toList.dropLast) = false)
    (hm : containsSub successUrlLit (m1 ++ successUrlLit.dropLast) = false)
    (hsp : ∀ c ∈ s0 :: s1, c ≠ '/')
    (hds : ∀ c ∈ d0 :: d1, c.isDigit = true)
    (htl : tail.takeWhile (fun c => c.isDigit) = [])
    (hnl : '\n' ∉ "SUCCESS: ".toList ++ (p0 :: p1) ++ " Content: ".toList ++ (m0 :: m1)
        ++ successUrlLit ++ (s0 :: s1) ++ "/pages/".toList ++ (d0 :: d1) ++ tail) :
    matchSuccessLine ("SUCCESS: ".toList ++ (p0 :: p1) ++ " Content: ".toList ++ (m0 :: m1)
        ++ successUrlLit ++ (s0 :: s1) ++ "/pages/".toList ++ (d0 :: d1) ++ tail)
      = some (p0 :: p1, s0 :: s1, d0 :: d1)
    ∧ extractPageIds ("SUCCESS: ".toList ++ (p0 :: p1) ++ " Content: ".toList ++ (m0 :: m1)
        ++ successUrlLit ++ (s0 :: s1) ++ "/pages/".toList ++ (d0 :: d1) ++ tail)
      = ([(normalizePath (stripMd (p0 :: p1)), d0 :: d1)], [(d0 :: d1, s0 :: s1)])
    ∧ (∀ output l q sq dq : Chars, l ∈ splitLines output →
        matchSuccessLine l = some (q, sq, dq) →
        (alGet (extractPageIds output).1 (normalizePath (stripMd q))).isSome = true) := by
  have hmatch := matchSuccessLine_of_form p1 m1 s1 d1 tail p0 m0 s0 d0 hp hm hsp hds htl
  refine ⟨hmatch, ?_, ?_⟩
  · unfold extractPageIds
    rw [splitLines_no_nl _ hnl]
    simp only [List.foldl_cons, List.foldl_nil, hmatch]
    simp [alSet]
  · intro output l q sq dq hl hml
    exact extractPageIds_registers output l q sq dq hl hml

/-- Witness for C4 at the concrete line
`SUCCESS: a.md Content: x Page URL: https://coreljira.atlassian.net/wiki/spaces/SP/pages/123`. -/
theorem c4_success_line_extraction_witness :
    (containsSub " Content: ".toList (".md".toList ++ " Content: ".toList.dropLast) = false ∧
      containsSub successUrlLit (([] : Chars) ++ successUrlLit.dropLast) = false ∧
      (∀ c ∈ 'S' :: "P".toList, c ≠ '/') ∧
      (∀ c ∈ '1' :: "23".toList, c.isDigit = true) ∧
      ([] : Chars).takeWhile (fun c => c.isDigit) = [] ∧
      '\n' ∉ "SUCCESS: ".toList ++ ('a' :: ".md".toList) ++ " Content: ".toList
        ++ ('x' :: ([] : Chars)) ++ successUrlLit ++ ('S' :: "P".toList) ++ "/pages/".toList
        ++ ('1' :: "23".toList) ++ ([] : Chars)) ∧
    matchSuccessLine ("SUCCESS: ".toList ++ ('a' :: ".md".toList) ++ " Content: ".toList
        ++ ('x' :: ([] : Chars)) ++ successUrlLit ++ ('S' :: "P".toList) ++ "/pages/".toList
        ++ ('1' :: "23".toList) ++ ([] : Chars))
      = some ('a' :: ".md".toList, 'S' :: "P".toList, '1' :: "23".toList)
    ∧ extractPageIds ("SUCCESS: ".toList ++ ('a' :: ".md".toList) ++ " Content: ".toList
        ++ ('x' :: ([] : Chars)) ++ successUrlLit ++ ('S' :: "P".toList) ++ "/pages/".toList
        ++ ('1' :: "23".toList) ++ ([] : Chars))
      = ([(normalizePath (stripMd ('a' :: ".md".toList)), '1' :: "23".toList)],
         [('1' :: "23".toList, 'S' :: "P".toList)])
    ∧ (∀ output l q sq dq : Chars, l ∈ splitLines output →
        matchSuccessLine l = some (q, sq, dq) →
        (alGet (extractPageIds output).1 (normalizePath (stripMd q))).isSome = true) :=
  ⟨⟨by decide, by decide, by decide, by decide, by decide, by decide⟩,
    c4_success_line_extraction ".md".toList [] "P".toList "23".toList [] 'a' 'x' 'S' '1'
      (by decide) (by decide) (by decide) (by decide) (by decide) (by decide)⟩

/-- Counterexample for C4 as frozen: the very same line shape with base URL
`https://example.atlassian.net` is missed entirely — the extraction returns
empty maps, because the base URL is hard-coded. -/
theorem c4_base_url_counterexample :
    extractPageIds
      "SUCCESS: a.md Content: x Page URL: https://example.atlassian.net/wiki/spaces/SP/pages/123".toList
      = ([], []) := by
  decide

/-- C1 (corrected): the configuration snapshot `originalConfig = { ...config }`
is taken only after the ignore-list mutation, so the `finally` block restores
the mutated configuration (`addIgnorePatterns c`), not the byte-identical
pre-run content.  The mirror removal and this restore do run on every path
after the configuration was read — in particular when the first publish fails —
but a configuration read failure throws before the `try` and restores nothing. -/
theorem c1_finally_restores_mutated_config (s : PubState) (c : PubConfig)
    (out : Option Chars) (sf : Bool) (hc : s.configFile = some c) :
    (publishToConfluence s out sf).2.configFile = some (addIgnorePatterns c)
    ∧ (publishToConfluence s out sf).2.mirrorExists = false
    ∧ (s.mirrorExists = true → (publishToConfluence s none sf).1 = PubOutcome.errPublish) := by
  refine ⟨?_, ?_, ?_⟩
  · unfold publishToConfluence
    rw [hc]
  · unfold publishToConfluence
    rw [hc]
  · intro hm
    unfold publishToConfluence
    rw [hc]
    simp [hm]

/-- Witness for C1 on a mirror-present state whose first publish fails. -/
theorem c1_finally_restores_mutated_config_witness :
    (({ configFile := some { ignore := some [], contentRoot := none }, mirrorExists := true,
        files := [], secondPublishInvoked := false } : PubState).configFile
      = some { ignore := some [], contentRoot := none } ∧
     ({ configFile := some { ignore := some [], contentRoot := none }, mirrorExists := true,
        files := [], secondPublishInvoked := false } : PubState).mirrorExists = true) ∧
    (publishToConfluence
        { configFile := some { ignore := some [], contentRoot := none }, mirrorExists := true,
          files := [], secondPublishInvoked := false } none false).2.configFile
      = some (addIgnorePatterns { ignore := some [], contentRoot := none })
    ∧ (publishToConfluence
        { configFile := some { ignore := some [], contentRoot := none }, mirrorExists := true,
          files := [], secondPublishInvoked := false } none false).2.mirrorExists = false
    ∧ (({ configFile := some { ignore := some [], contentRoot := none }, mirrorExists := true,
          files := [], secondPublishInvoked := false } : PubState).mirrorExists = true →
        (publishToConfluence
          { configFile := some { ignore := some [], contentRoot := none }, mirrorExists := true,
            files := [], secondPublishInvoked := false } none false).1
          = PubOutcome.errPublish) :=
  ⟨⟨by decide, by decide⟩,
    c1_finally_restores_mutated_config
      { configFile := some { ignore := some [], contentRoot := none }, mirrorExists := true,
        files := [], secondPublishInvoked := false }
      { ignore := some [], contentRoot := none } none false (by decide)⟩

/-- Counterexample for C1 as frozen: with a pre-run configuration whose ignore
list is `[]`, the file written back after a failed first publish differs from
the pre-run content — the image directories were added before the snapshot. -/
theorem c1_not_byte_identical_counterexample :
    (publishToConfluence
        { configFile := some { ignore := some [], contentRoot := none }, mirrorExists := true,
          files := [], secondPublishInvoked := false } none false).2.configFile
      ≠ some { ignore := some ([] : List Chars), contentRoot := none } := by
  decide

/-- C2 (corrected): `hasNewIds` is set whenever any file's relative path
matched a SUCCESS line of the output, regardless of whether that file already
carried the same page identifier — it does not mean "newly assigned".  The
skip itself is as described: when `hasNewIds` is false the orchestrator
invokes no second publish and finishes with `ok`. -/
theorem c2_hasNewIds_means_any_match (files : List PubFile) (output : Chars)
    (s : PubState) (c : PubConfig) (sf : Bool)
    (hc : s.configFile = some c) (hm : s.mirrorExists = true)
    (hfalse : (updatePageIds s.files output).1 = false) :
    ((updatePageIds files output).1 = true
      ↔ ∃ f ∈ files, (alGet (extractPageIdsPub output) f.relPath).isSome = true)
    ∧ (publishToConfluence s (some output) sf).2.secondPublishInvoked = false
    ∧ (publishToConfluence s (some output) sf).1 = PubOutcome.ok := by
  refine ⟨?_, ?_, ?_⟩
  · unfold updatePageIds
    simp [List.any_eq_true]
  · unfold publishToConfluence
    rw [hc]
    simp [hm, hfalse]
  · unfold publishToConfluence
    rw [hc]
    simp [hm, hfalse]

/-- A one-file state with no matching output, used as the C2 witness data. -/
def pubFileA : PubFile := ⟨"a.md".toList, []⟩

def pubStateA : PubState := ⟨some ⟨none, none⟩, true, [pubFileA], false⟩

/-- Witness for C2: one unmatched file, an output with no SUCCESS line. -/
theorem c2_hasNewIds_means_any_match_witness :
    (pubStateA.configFile = some ⟨none, none⟩ ∧
      pubStateA.mirrorExists = true ∧
      (updatePageIds pubStateA.files "done".toList).1 = false) ∧
    ((updatePageIds [pubFileA] "done".toList).1 = true
      ↔ ∃ f ∈ [pubFileA], (alGet (extractPageIdsPub "done".toList) f.relPath).isSome = true)
    ∧ (publishToConfluence pubStateA (some "done".toList) false).2.secondPublishInvoked = false
    ∧ (publishToConfluence pubStateA (some "done".toList) false).1 = PubOutcome.ok :=
  ⟨⟨by decide, by decide, by decide⟩,
    c2_hasNewIds_means_any_match [pubFileA] "done".toList pubStateA ⟨none, none⟩ false
      (by decide) (by decide) (by decide)⟩

/-- Counterexample for C2 as frozen: a document that already carries exactly
the page identifier reported by the SUCCESS line still sets `hasNewIds`,
although nothing was newly assigned. -/
theorem c2_already_carried_counterexample :
    (updatePageIds
        [{ relPath := "a.md".toList, frontmatter := [(kPageId, FmVal.str "123".toList)] }]
      ("SUCCESS: a.md Content: x Page URL: https://coreljira.atlassian.net/wiki/spaces/SP/pages/123").toList).1
      = true
    ∧ newlyAssignedB
        [{ relPath := "a.md".toList, frontmatter := [(kPageId, FmVal.str "123".toList)] }]
      ("SUCCESS: a.md Content: x Page URL: https://coreljira.atlassian.net/wiki/spaces/SP/pages/123").toList
      = false := by
  constructor
  · decide
  · decide

/-- The loop body of `buildPageIdMap`, named for reasoning. -/
def buildStep (pageMap : List (Chars × FmVal)) (doc : Chars × FMv) : List (Chars × FmVal) :=
  match alGet doc.2 kPageId with
  | some v =>
    if truthy v then
      let normalized := normalizePath doc.1
      let normalizedBase := normalizePath (stripMd doc.1)
      let m1 := alSet pageMap normalized v
      let m2 := alSet m1 normalizedBase v
      let parentDir := dirname normalized
      if parentDir = ".".toList then m2 else alSet m2 parentDir v
    else pageMap
  | none => pageMap

/-- The loop body of `lastRegistrant`, named for reasoning. -/
def lastStep (k : Chars) (acc : Option FmVal) (doc : Chars × FMv) : Option FmVal :=
  match registeredValue doc k with
  | some v => some v
  | none => acc

theorem buildStep_alGet (init : List (Chars × FmVal)) (doc : Chars × FMv) (k : Chars) :
    alGet (buildStep init doc) k = lastStep k (alGet init k) doc := by
  unfold buildStep lastStep registeredValue
  cases hpid : alGet doc.2 kPageId with
  | none => rfl
  | some v =>
    by_cases htr : truthy v = true
    · by_cases hp : dirname (normalizePath doc.1) = ['.']
      · by_cases hk2 : k = normalizePath (stripMd doc.1)
        · simp [htr, hp, hk2, alGet_alSet_same]
        · by_cases hk1 : k = normalizePath doc.1
          · have hne : normalizePath doc.1 ≠ normalizePath (stripMd doc.1) :=
              fun h => hk2 (hk1.trans h)
            simp [htr, hp, hk1]
            rw [alGet_alSet_other _ _ _ _ hne, alGet_alSet_same]
          · simp [htr, hp, hk1, hk2, alGet_alSet_other]
      · by_cases hk3 : k = dirname (normalizePath doc.1)
        · simp [htr, hp, hk3, alGet_alSet_same]
        · by_cases hk2 : k = normalizePath (stripMd doc.1)
          · have hne : normalizePath (stripMd doc.1) ≠ dirname (normalizePath doc.1) :=
              fun h => hk3 (hk2.trans h)
            simp [htr, hp, hk2]
            rw [alGet_alSet_other _ _ _ _ hne, alGet_alSet_same]
          · by_cases hk1 : k = normalizePath doc.1
            · have hne1 : normalizePath doc.1 ≠ dirname (normalizePath doc.1) :=
                fun h => hk3 (hk1.trans h)
              have hne2 : normalizePath doc.1 ≠ normalizePath (stripMd doc.1) :=
                fun h => hk2 (hk1.trans h)
              simp [htr, hp, hk1]
              rw [alGet_alSet_other _ _ _ _ hne1, alGet_alSet_other _ _ _ _ hne2,
                alGet_alSet_same]
            · simp [htr, hp, hk1, hk2, hk3, alGet_alSet_other]
    · simp [htr]

theorem foldl_buildStep_alGet (k : Chars) :
    ∀ (ds : List (Chars × FMv)) (init : List (Chars × FmVal)),
      alGet (ds.foldl buildStep init) k = ds.foldl (lastStep k) (alGet init k) := by
  intro ds
  induction ds with
  | nil => intro init; rfl
  | cons d rest ih =>
    intro init
    simp only [List.foldl_cons]
    rw [ih (buildStep init d), buildStep_alGet]

/-- C3 (corrected): `Map.set` overwrites, so a later-visited document DOES
overwrite a key already registered by an earlier one: for every key the
resulting map holds the identifier of the LAST document that registered it
(last-write-wins), not the first. -/
theorem c3_buildPageIdMap_last_write_wins (docs : List (Chars × FMv)) (k : Chars) :
    alGet (buildPageIdMap docs) k = lastRegistrant docs k := by
  show alGet (docs.foldl buildStep []) k = docs.foldl (lastStep k) none
  exact foldl_buildStep_alGet k docs []

/-- Counterexample for C3 as frozen: two documents in the same directory both
register the key `dir`; the resulting map holds the id of the second (later)
document, not the first. -/
theorem c3_first_write_counterexample :
    alGet (buildPageIdMap
        [("dir/a.md".toList, [(kPageId, FmVal.str "1".toList)]),
         ("dir/b.md".toList, [(kPageId, FmVal.str "2".toList)])])
      "dir".toList = some (FmVal.str "2".toList)
    ∧ alGet (buildPageIdMap
        [("dir/a.md".toList, [(kPageId, FmVal.str "1".toList)]),
         ("dir/b.md".toList, [(kPageId, FmVal.str "2".toList)])])
      "dir".toList ≠ some (FmVal.str "1".toList) := by
  constructor
  · decide
  · decide

/-- C5 (corrected): the orchestrator appends only the image directories
`images` and `assets/images` to the ignore list, each idempotently; the
mirror directory name `docs-fixed-references` is never added — its count is
whatever it was before, in particular zero for a fresh configuration. -/
theorem count_single (a b : Chars) : List.count a [b] = if a = b then 1 else 0 := by
  by_cases h : a = b
  · subst h
    rw [if_pos rfl]
    simp
  · rw [if_neg h]
    simp [List.count_eq_zero, h]

theorem c5_ignore_patterns (c : PubConfig) :
    ∃ l, (addIgnorePatterns c).ignore = some l
      ∧ "images".toList ∈ l ∧ "assets/images".toList ∈ l
      ∧ l.count "images".toList
          = (if "images".toList ∈ c.ignore.getD []
             then (c.ignore.getD []).count "images".toList
             else (c.ignore.getD []).count "images".toList + 1)
      ∧ l.count "assets/images".toList
          = (if "assets/images".toList ∈ c.ignore.getD []
             then (c.ignore.getD []).count "assets/images".toList
             else (c.ignore.getD []).count "assets/images".toList + 1)
      ∧ l.count fixedRefsDirName = (c.ignore.getD []).count fixedRefsDirName := by
  have hne1 : "assets/images".toList ≠ "images".toList := by decide
  have hne2 : fixedRefsDirName ≠ "images".toList := by decide
  have hne3 : fixedRefsDirName ≠ "assets/images".toList := by decide
  have hne4 : "images".toList ≠ "assets/images".toList := by decide
  by_cases h1 : "images".toList ∈ c.ignore.getD []
  · by_cases h2 : "assets/images".toList ∈ c.ignore.getD []
    · refine ⟨c.ignore.getD [], ?_, h1, h2, ?_, ?_, rfl⟩
      · simp only [addIgnorePatterns]
        rw [if_pos h1, if_pos h2]
      · rw [if_pos h1]
      · rw [if_pos h2]
    · refine ⟨c.ignore.getD [] ++ ["assets/images".toList], ?_, ?_, ?_, ?_, ?_, ?_⟩
      · simp only [addIgnorePatterns]
        rw [if_pos h1, if_neg h2]
      · exact List.mem_append.mpr (Or.inl h1)
      · exact List.mem_append.mpr (Or.inr (by simp))
      · rw [if_pos h1, List.count_append, count_single, if_neg hne4, Nat.add_zero]
      · rw [if_neg h2, List.count_append, count_single, if_pos rfl]
      · rw [List.count_append, count_single, if_neg hne3, Nat.add_zero]
  · have hig1 : ∀ x : Chars, x ∈ c.ignore.getD [] ++ ["images".toList]
        ↔ (x ∈ c.ignore.getD [] ∨ x = "images".toList) := by
      intro x
      rw [List.mem_append]
      simp
    by_cases h2 : "assets/images".toList ∈ c.ignore.getD []
    · have h2b : "assets/images".toList ∈ c.ignore.getD [] ++ ["images".toList] :=
        (hig1 _).mpr (Or.inl h2)
      refine ⟨c.ignore.getD [] ++ ["images".toList], ?_, ?_, ?_, ?_, ?_, ?_⟩
      · simp only [addIgnorePatterns]
        rw [if_neg h1, if_pos h2b]
      · exact List.mem_append.mpr (Or.inr (by simp))
      · exact List.mem_append.mpr (Or.inl h2)
      · rw [if_neg h1, List.count_append, count_single, if_pos rfl]
      · rw [if_pos h2, List.count_append, count_single, if_neg hne1, Nat.add_zero]
      · rw [List.count_append, count_single, if_neg hne2, Nat.add_zero]
    · have h2b : "assets/images".toList ∉ c.ignore.getD [] ++ ["images".toList] := by
        intro hmem
        rcases (hig1 _).mp hmem with h | h
        · exact h2 h
        · exact hne1 h
      refine ⟨c.ignore.getD [] ++ ["images".toList] ++ ["assets/images".toList],
          ?_, ?_, ?_, ?_, ?_, ?_⟩
      · simp only [addIgnorePatterns]
        rw [if_neg h1, if_neg h2b]
      · exact List.mem_append.mpr (Or.inl (List.mem_append.mpr (Or.inr (by simp))))
      · exact List.mem_append.mpr (Or.inr (by simp))
      · rw [if_neg h1, List.count_append, List.count_append, count_single,
          count_single, if_pos rfl, if_neg hne4]
      · rw [if_neg h2, List.count_append, List.count_append, count_single,
          count_single, if_pos rfl, if_neg hne1]
      · rw [List.count_append, List.count_append, count_single,
          count_single, if_neg hne2, if_neg hne3, Nat.add_zero]

/-- Counterexample for C5 as frozen: starting from an empty ignore list, the
mirror directory name `docs-fixed-references` is NOT among the entries after
the step — only the two image directories are added. -/
theorem c5_no_mirror_entry_counterexample :
    (addIgnorePatterns ⟨some [], none⟩).ignore
      = some ["images".toList, "assets/images".toList]
    ∧ fixedRefsDirName ∉ ["images".toList, "assets/images".toList] := by
  constructor
  · decide
  · decide

/-- C6 (corrected): a truthy blog-post-date does force content-type
`blogpost`, but the converse direction fails: with no (or a falsy) date the
walk keeps an existing truthy content-type unchanged, so a document whose
frontmatter already says `blogpost` keeps that value without any date.  The
precise characterisation: the resulting content-type is `blogpost` iff the
date is set (truthy) or the existing content-type is already `blogpost`. -/
theorem c6_content_type_iff (existing : FMv) (entryName : Chars) (pid : Option Chars)
    (skm : List (Chars × Chars)) :
    (alGet (newFrontmatterFor existing entryName pid skm) kContentType
        = some (FmVal.str "blogpost".toList))
      ↔ ((∃ v, alGet existing kBlogDate = some v ∧ truthy v = true)
          ∨ alGet existing kContentType = some (FmVal.str "blogpost".toList)) := by
  have hpage : ¬(FmVal.str "page".toList = FmVal.str "blogpost".toList) := by decide
  have hbp : truthy (FmVal.str "blogpost".toList) = true := by decide
  cases hdt : alGet existing kBlogDate with
  | some v =>
    by_cases htr : truthy v = true
    · have hval : alGet (newFrontmatterFor existing entryName pid skm) kContentType
          = some (FmVal.str "blogpost".toList) := by
        unfold newFrontmatterFor
        simp [hdt, htr, alGet_alSet_same]
      rw [hval]
      exact iff_of_true rfl (Or.inl ⟨v, rfl, htr⟩)
    · cases hct : alGet existing kContentType with
      | none =>
        have hval : alGet (newFrontmatterFor existing entryName pid skm) kContentType
            = some (FmVal.str "page".toList) := by
          unfold newFrontmatterFor
          simp [hdt, htr, hct, alGet_alSet_same]
        rw [hval]
        apply iff_of_false
        · simp [hpage]
        · rintro (⟨v2, hv2, htv2⟩ | hcc)
          · injection hv2 with h2
            rw [← h2] at htv2
            exact htr htv2
          · simp at hcc
      | some w =>
        by_cases htw : truthy w = true
        · have hval : alGet (newFrontmatterFor existing entryName pid skm) kContentType
              = some w := by
            unfold newFrontmatterFor
            simp [hdt, htr, hct, htw, alGet_alSet_same]
          rw [hval]
          constructor
          · intro h
            injection h with h2
            exact Or.inr (by rw [h2])
          · rintro (⟨v2, hv2, htv2⟩ | hcc)
            · injection hv2 with h2
              rw [← h2] at htv2
              exact absurd htv2 htr
            · injection hcc with h2
              rw [h2]
        · have hval : alGet (newFrontmatterFor existing entryName pid skm) kContentType
              = some (FmVal.str "page".toList) := by
            unfold newFrontmatterFor
            simp [hdt, htr, hct, htw, alGet_alSet_same]
          rw [hval]
          apply iff_of_false
          · simp [hpage]
          · rintro (⟨v2, hv2, htv2⟩ | hcc)
            · injection hv2 with h2
              rw [← h2] at htv2
              exact htr htv2
            · injection hcc with h2
              rw [h2] at htw
              exact htw hbp
  | none =>
    cases hct : alGet existing kContentType with
    | none =>
      have hval : alGet (newFrontmatterFor existing entryName pid skm) kContentType
          = some (FmVal.str "page".toList) := by
        unfold newFrontmatterFor
        simp [hdt, hct, alGet_alSet_same]
      rw [hval]
      apply iff_of_false
      · simp [hpage]
      · rintro (⟨v2, hv2, htv2⟩ | hcc)
        · simp at hv2
        · simp at hcc
    | some w =>
      by_cases htw : truthy w = true
      · have hval : alGet (newFrontmatterFor existing entryName pid skm) kContentType
            = some w := by
          unfold newFrontmatterFor
          simp [hdt, hct, htw, alGet_alSet_same]
        rw [hval]
        constructor
        · intro h
          injection h with h2
          exact Or.inr (by rw [h2])
        · rintro (⟨v2, hv2, htv2⟩ | hcc)
          · simp at hv2
          · injection hcc with h2
            rw [h2]
      · have hval : alGet (newFrontmatterFor existing entryName pid skm) kContentType
            = some (FmVal.str "page".toList) := by
          unfold newFrontmatterFor
          simp [hdt, hct, htw, alGet_alSet_same]
        rw [hval]
        apply iff_of_false
        · simp [hpage]
        · rintro (⟨v2, hv2, htv2⟩ | hcc)
          · simp at hv2
          · injection hcc with h2
            rw [h2] at htw
            exact htw hbp

/-- Counterexample for C6 as frozen: a document with an existing
`connie-content-type: blogpost` and NO blog-post-date still comes out as
`blogpost`, so absence of the date does not yield a non-`blogpost` type. -/
theorem c6_no_date_blogpost_counterexample :
    alGet (newFrontmatterFor [(kContentType, FmVal.str "blogpost".toList)]
        "a.md".toList none []) kContentType
      = some (FmVal.str "blogpost".toList)
    ∧ alGet [(kContentType, FmVal.str "blogpost".toList)] kBlogDate = none := by
  constructor
  · decide
  · decide

/-- C10 (corrected): every walked markdown file is rewritten, also when its
path matches no extracted identifier; `connie-title` and
`connie-dont-change-parent-page` are defaulted as described and all other
existing keys keep their values, but the `connie-content-type` default is
`"page"` only when the file also has no (truthy) blog-post-date — a date
forces `"blogpost"` even when the content-type was unset. -/
theorem c10_unmatched_file_defaults (pm skm : List (Chars × Chars)) (files : List UOFile)
    (f : UOFile) (hmem : f ∈ files)
    (hun : alGet pm (normalizePath (stripMd f.relFilePath)) = none) :
    newFrontmatterFor f.frontmatter f.entryName none skm ∈ updateOriginalFilesFM pm skm files
    ∧ (alGet f.frontmatter kTitle = none →
        alGet (newFrontmatterFor f.frontmatter f.entryName none skm) kTitle
          = some (FmVal.str (baseNameExt f.entryName ".md".toList)))
    ∧ (alGet f.frontmatter kDontChangeParent = none →
        alGet (newFrontmatterFor f.frontmatter f.entryName none skm) kDontChangeParent
          = some (FmVal.bool false))
    ∧ (alGet f.frontmatter kContentType = none → alGet f.frontmatter kBlogDate = none →
        alGet (newFrontmatterFor f.frontmatter f.entryName none skm) kContentType
          = some (FmVal.str "page".toList))
    ∧ (∀ k, k ≠ kTitle → k ≠ kDontChangeParent → k ≠ kContentType →
        alGet (newFrontmatterFor f.frontmatter f.entryName none skm) k
          = alGet f.frontmatter k) := by
  have hTD : kTitle ≠ kDontChangeParent := by decide
  have hTC : kTitle ≠ kContentType := by decide
  have hTB : kTitle ≠ kBlogDate := by decide
  have hDC : kDontChangeParent ≠ kContentType := by decide
  have hDB : kDontChangeParent ≠ kBlogDate := by decide
  refine ⟨?_, ?_, ?_, ?_, ?_⟩
  · exact List.mem_map.mpr ⟨f, hmem, by rw [hun]⟩
  · intro hti
    unfold newFrontmatterFor
    cases hdt : alGet f.frontmatter kBlogDate with
    | some v =>
      by_cases htr : truthy v = true
      · simp [hdt, htr, hti, alGet_alSet_same, alGet_alSet_other, hTC, hTB, hTD]
      · simp [hdt, htr, hti, alGet_alSet_same, alGet_alSet_other, hTC, hTD]
    | none => simp [hdt, hti, alGet_alSet_same, alGet_alSet_other, hTC, hTD]
  · intro hdcp
    unfold newFrontmatterFor
    cases hdt : alGet f.frontmatter kBlogDate with
    | some v =>
      by_cases htr : truthy v = true
      · simp [hdt, htr, hdcp, alGet_alSet_same, alGet_alSet_other, hDC, hDB]
      · simp [hdt, htr, hdcp, alGet_alSet_same, alGet_alSet_other, hDC]
    | none => simp [hdt, hdcp, alGet_alSet_same, alGet_alSet_other, hDC]
  · intro hct hdt
    unfold newFrontmatterFor
    simp [hdt, hct, alGet_alSet_same]
  · intro k hkT hkD hkC
    unfold newFrontmatterFor
    cases hdt : alGet f.frontmatter kBlogDate with
    | some v =>
      by_cases htr : truthy v = true
      · by_cases hkB : k = kBlogDate
        · subst hkB
          simp [hdt, htr, alGet_alSet_same, alGet_alSet_other, hkC, hkT, hkD]
        · simp [hdt, htr, alGet_alSet_same, alGet_alSet_other, hkC, hkB, hkT, hkD]
      · simp [hdt, htr, alGet_alSet_other, hkC, hkT, hkD]
    | none => simp [hdt, alGet_alSet_other, hkC, hkT, hkD]

/-- Witness for C10 on a one-file tree whose path matches nothing. -/
theorem c10_unmatched_file_defaults_witness :
    ((⟨"a.md".toList, "a.md".toList, [("x".toList, FmVal.str "1".toList)]⟩ : UOFile)
        ∈ [(⟨"a.md".toList, "a.md".toList, [("x".toList, FmVal.str "1".toList)]⟩ : UOFile)] ∧
      alGet ([] : List (Chars × Chars))
        (normalizePath (stripMd "a.md".toList)) = none) ∧
    (newFrontmatterFor [("x".toList, FmVal.str "1".toList)] "a.md".toList none []
        ∈ updateOriginalFilesFM [] []
          [⟨"a.md".toList, "a.md".toList, [("x".toList, FmVal.str "1".toList)]⟩]
    ∧ (alGet [("x".toList, FmVal.str "1".toList)] kTitle = none →
        alGet (newFrontmatterFor [("x".toList, FmVal.str "1".toList)] "a.md".toList none [])
          kTitle = some (FmVal.str (baseNameExt "a.md".toList ".md".toList)))
    ∧ (alGet [("x".toList, FmVal.str "1".toList)] kDontChangeParent = none →
        alGet (newFrontmatterFor [("x".toList, FmVal.str "1".toList)] "a.md".toList none [])
          kDontChangeParent = some (FmVal.bool false))
    ∧ (alGet [("x".toList, FmVal.str "1".toList)] kContentType = none →
        alGet [("x".toList, FmVal.str "1".toList)] kBlogDate = none →
        alGet (newFrontmatterFor [("x".toList, FmVal.str "1".toList)] "a.md".toList none [])
          kContentType = some (FmVal.str "page".toList))
    ∧ (∀ k, k ≠ kTitle → k ≠ kDontChangeParent → k ≠ kContentType →
        alGet (newFrontmatterFor [("x".toList, FmVal.str "1".toList)] "a.md".toList none []) k
          = alGet [("x".toList, FmVal.str "1".toList)] k)) :=
  ⟨⟨by decide, by decide⟩,
    c10_unmatched_file_defaults [] []
      [⟨"a.md".toList, "a.md".toList, [("x".toList, FmVal.str "1".toList)]⟩]
      ⟨"a.md".toList, "a.md".toList, [("x".toList, FmVal.str "1".toList)]⟩
      (by decide) (by decide)⟩

/-- Counterexample for C10 as frozen: an unmatched file with a blog-post-date
and no content-type gets `blogpost`, not the claimed default `page`. -/
theorem c10_date_counterexample :
    alGet ([] : List (Chars × Chars)) (normalizePath (stripMd "a.md".toList)) = none
    ∧ alGet [(kBlogDate, FmVal.str "2024-01-01".toList)] kContentType = none
    ∧ alGet (newFrontmatterFor [(kBlogDate, FmVal.str "2024-01-01".toList)]
        "a.md".toList none []) kContentType
      = some (FmVal.str "blogpost".toList) := by
  refine ⟨by decide, by decide, by decide⟩
